import Mathlib

/-!
# Verification of the GoMatchEngine order-matching core

A shallow embedding of the `phase2-order-engine` package (order.go, trade.go,
orderbook.go, gateway.go) together with proofs about its matching, cancellation
and validation behaviour.

Modelling conventions:
* Go `string`-based enumerations (`Side`, `OrderType`, `OrderStatus`) are kept
  as `String` constants, so that invalid values (e.g. side `"HOLD"`) remain
  representable, exactly as in the source.
* `float64` prices are modelled as `ℚ`: the engine only stores prices unchanged
  and compares them (`<`, `>`, `≠`), so any linearly ordered field is faithful
  for every non-NaN execution.
* `int64`/`uint64` are modelled as `Int`/`Nat`; no claim concerns overflow and
  validated quantities keep all arithmetic far from 2^63.
* Pointer mutation (`bestAsk.Filled += qty`, `o.Status = ...`) becomes functional
  update of the list cell holding the order; the heaps hold the orders
  themselves.
* The package-global atomic trade-id counter is threaded explicitly as a `Nat`.
-/

set_option linter.unusedVariables false

namespace GME

/-! ## order.go — enumerations and the `Order` structure -/

def Buy : String := "BUY"

def Sell : String := "SELL"

def Limit : String := "LIMIT"

def Market : String := "MARKET"

def IOC : String := "IOC"

def StatusOpen : String := "OPEN"

def StatusPartial : String := "PARTIAL"

def StatusFilled : String := "FILLED"

def StatusCancelled : String := "CANCELLED"

def StatusRejected : String := "REJECTED"

/-- `type Order struct` from order.go.  The Go field `Type` is a Lean keyword,
so it is called `Typ` here. -/
structure Order where
  ID : Nat
  Symbol : String
  Side : String
  Typ : String
  Status : String
  Price : ℚ
  Quantity : Int
  Filled : Int
  Timestamp : Int
  deriving Repr, DecidableEq, Inhabited

/-- `func (o *Order) Remaining() int64 { return o.Quantity - o.Filled }` -/
def Order.Remaining (o : Order) : Int := o.Quantity - o.Filled

/-- `func (o *Order) IsFilled() bool { return o.Filled >= o.Quantity }` -/
def Order.IsFilled (o : Order) : Bool := decide (o.Filled ≥ o.Quantity)

/-- `func (o *Order) IsActive() bool` — status OPEN or PARTIAL. -/
def Order.IsActive (o : Order) : Bool :=
  (o.Status == StatusOpen) || (o.Status == StatusPartial)

/-! ## trade.go — the `Trade` record -/

/-- `type Trade struct` from trade.go. -/
structure Trade where
  ID : Nat
  Symbol : String
  BuyOrderID : Nat
  SellOrderID : Nat
  Price : ℚ
  Quantity : Int
  Timestamp : Int
  deriving Repr, DecidableEq, Inhabited

/-- `newTrade` from trade.go; the id produced by `nextTradeID()` is passed in
explicitly (the Go source reads a package-global atomic counter). -/
def newTrade (id : Nat) (symbol : String) (buyID sellID : Nat) (price : ℚ)
    (qty : Int) (ts : Int) : Trade :=
  { ID := id, Symbol := symbol, BuyOrderID := buyID, SellOrderID := sellID,
    Price := price, Quantity := qty, Timestamp := ts }

/-! ## orderbook.go — heap comparators

`BidHeap.Less` and `AskHeap.Less` compare two orders; all other heap methods
are the textbook `container/heap` protocol, reproduced below. -/

/-- `BidHeap.Less`: max-heap on price, FIFO (earlier timestamp) on ties. -/
def bidLess (a b : Order) : Bool :=
  if a.Price ≠ b.Price then decide (a.Price > b.Price)
  else decide (a.Timestamp < b.Timestamp)

/-- `AskHeap.Less`: min-heap on price, FIFO (earlier timestamp) on ties. -/
def askLess (a b : Order) : Bool :=
  if a.Price ≠ b.Price then decide (a.Price < b.Price)
  else decide (a.Timestamp < b.Timestamp)

/-! ## container/heap — the Go standard-library heap algorithm

The book's two sides are `[]*Order` slices manipulated exclusively through
`heap.Push` and `heap.Pop`.  We reproduce the Go standard library's sift
routines (`up`, `down`) verbatim over `List Order`, parameterised by the
`Less` comparator of the side. -/

/-- `h.Swap(i, j)` on a slice. -/
def swapL (l : List Order) (i j : Nat) : List Order :=
  let a := l.getD i default
  let b := l.getD j default
  (l.set i b).set j a

/-- `func up(h Interface, j int)` from container/heap. -/
def upHeap (cmp : Order → Order → Bool) (l : List Order) (j : Nat) :
    List Order :=
  let i := (j - 1) / 2
  if i = j ∨ cmp (l.getD j default) (l.getD i default) = false then l
  else upHeap cmp (swapL l i j) i
termination_by j
decreasing_by
  simp only [not_or] at *
  omega

/-- `func down(h Interface, i0, n int) bool` from container/heap (the returned
bool is unused by this code base: `heap.Fix` is never called). -/
def downHeap (cmp : Order → Order → Bool) (l : List Order) (i n : Nat) :
    List Order :=
  let j1 := 2 * i + 1
  if n ≤ j1 then l
  else
    let j := if decide (2 * i + 2 < n) && cmp (l.getD (2 * i + 2) default) (l.getD j1 default)
             then 2 * i + 2 else j1
    if cmp (l.getD j default) (l.getD i default) = false then l
    else downHeap cmp (swapL l i j) j n
termination_by n - i
decreasing_by
  split <;> simp_all <;> omega

/-- `heap.Push`: append then sift up from the last index. -/
def heapPush (cmp : Order → Order → Bool) (l : List Order) (x : Order) :
    List Order :=
  upHeap cmp (l ++ [x]) l.length

/-- `heap.Pop`: swap the root with the last element, sift the new root down
within the shortened prefix, then detach the last element (the old root). -/
def heapPop (cmp : Order → Order → Bool) (l : List Order) :
    Order × List Order :=
  let n := l.length - 1
  let l1 := swapL l 0 n
  let l2 := downHeap cmp l1 0 n
  (l2.getD n default, l2.take n)

/-! ## The binary-heap shape invariant -/

/-- The first `n` cells of `l` satisfy the `container/heap` invariant: no
element is `Less` than its parent. -/
def IsHeapN (cmp : Order → Order → Bool) (l : List Order) (n : Nat) : Prop :=
  ∀ j, j < n → 0 < j → cmp (l.getD j default) (l.getD ((j - 1) / 2) default) = false

/-- The whole list is heap-ordered. -/
def IsHeap (cmp : Order → Order → Bool) (l : List Order) : Prop :=
  IsHeapN cmp l l.length

instance (cmp l n) : Decidable (IsHeapN cmp l n) := by
  unfold IsHeapN; infer_instance

/-- The properties of a strict weak order that the sift proofs use, together
with the fact that the comparator reads only the price and timestamp fields. -/
structure LessOK (cmp : Order → Order → Bool) : Prop where
  irrefl : ∀ a, cmp a a = false
  asym : ∀ a b, cmp a b = true → cmp b a = false
  trans : ∀ a b c, cmp a b = true → cmp b c = true → cmp a c = true
  negtrans : ∀ a b c, cmp a b = false → cmp b c = false → cmp a c = false
  keyed : ∀ a a' b, a.Price = a'.Price → a.Timestamp = a'.Timestamp →
      cmp a b = cmp a' b ∧ cmp b a = cmp b a'

/-- Both `Less` methods are the strict lexicographic order on a
(price-key, timestamp) pair; the bid side negates the price to turn the
max-heap into the generic min-form. -/
def lexLess (p q : ℚ × Int) : Bool :=
  if p.1 ≠ q.1 then decide (p.1 < q.1) else decide (p.2 < q.2)

theorem lexLess_iff (p q : ℚ × Int) :
    lexLess p q = true ↔ (p.1 < q.1 ∨ (p.1 = q.1 ∧ p.2 < q.2)) := by
  unfold lexLess
  by_cases h : p.1 = q.1 <;> simp [h]

theorem lexLess_false_iff (p q : ℚ × Int) :
    lexLess p q = false ↔ (q.1 < p.1 ∨ (p.1 = q.1 ∧ q.2 ≤ p.2)) := by
  unfold lexLess
  by_cases h : p.1 = q.1
  · simp [h, Int.not_lt]
  · simp only [ne_eq, h, not_false_eq_true, if_true, decide_eq_false_iff_not,
      not_lt]
    constructor
    · intro hle; exact Or.inl (lt_of_le_of_ne hle (Ne.symm h))
    · rintro (hlt | ⟨he, _⟩)
      · exact le_of_lt hlt
      · exact he.elim

theorem lexLess_irrefl (p : ℚ × Int) : lexLess p p = false := by
  simp [lexLess]

theorem lexLess_asym (p q : ℚ × Int) (h : lexLess p q = true) :
    lexLess q p = false := by
  rw [lexLess_iff] at h
  rw [lexLess_false_iff]
  rcases h with h | ⟨he, ht⟩
  · exact Or.inl h
  · exact Or.inr ⟨he.symm, le_of_lt ht⟩

theorem lexLess_trans (p q r : ℚ × Int) (h1 : lexLess p q = true)
    (h2 : lexLess q r = true) : lexLess p r = true := by
  rw [lexLess_iff] at h1 h2 ⊢
  rcases h1 with h1 | ⟨e1, t1⟩ <;> rcases h2 with h2 | ⟨e2, t2⟩
  · exact Or.inl (lt_trans h1 h2)
  · exact Or.inl (e2 ▸ h1)
  · exact Or.inl (e1 ▸ h2)
  · exact Or.inr ⟨e1.trans e2, lt_trans t1 t2⟩

theorem lexLess_negtrans (p q r : ℚ × Int) (h1 : lexLess p q = false)
    (h2 : lexLess q r = false) : lexLess p r = false := by
  rw [lexLess_false_iff] at h1 h2 ⊢
  rcases h1 with h1 | ⟨e1, t1⟩ <;> rcases h2 with h2 | ⟨e2, t2⟩
  · exact Or.inl (lt_trans h2 h1)
  · exact Or.inl (e2 ▸ h1)
  · exact Or.inl (e1 ▸ h2)
  · exact Or.inr ⟨e1.trans e2, le_trans t2 t1⟩

theorem bidLess_eq_lexLess (a b : Order) :
    bidLess a b = lexLess (-a.Price, a.Timestamp) (-b.Price, b.Timestamp) := by
  unfold bidLess lexLess
  by_cases h : a.Price = b.Price <;> simp [h]

theorem askLess_eq_lexLess (a b : Order) :
    askLess a b = lexLess (a.Price, a.Timestamp) (b.Price, b.Timestamp) := by
  unfold askLess lexLess
  by_cases h : a.Price = b.Price <;> simp [h]

theorem bidLess_ok : LessOK bidLess := by
  refine ⟨?_, ?_, ?_, ?_, ?_⟩
  · intro a; rw [bidLess_eq_lexLess]; exact lexLess_irrefl _
  · intro a b h; rw [bidLess_eq_lexLess] at h ⊢; exact lexLess_asym _ _ h
  · intro a b c h1 h2; rw [bidLess_eq_lexLess] at h1 h2 ⊢
    exact lexLess_trans _ _ _ h1 h2
  · intro a b c h1 h2; rw [bidLess_eq_lexLess] at h1 h2 ⊢
    exact lexLess_negtrans _ _ _ h1 h2
  · intro a a' b hp ht
    constructor <;> rw [bidLess_eq_lexLess, bidLess_eq_lexLess, hp, ht]

theorem askLess_ok : LessOK askLess := by
  refine ⟨?_, ?_, ?_, ?_, ?_⟩
  · intro a; rw [askLess_eq_lexLess]; exact lexLess_irrefl _
  · intro a b h; rw [askLess_eq_lexLess] at h ⊢; exact lexLess_asym _ _ h
  · intro a b c h1 h2; rw [askLess_eq_lexLess] at h1 h2 ⊢
    exact lexLess_trans _ _ _ h1 h2
  · intro a b c h1 h2; rw [askLess_eq_lexLess] at h1 h2 ⊢
    exact lexLess_negtrans _ _ _ h1 h2
  · intro a a' b hp ht
    constructor <;> rw [askLess_eq_lexLess, askLess_eq_lexLess, hp, ht]

/-! ## Basic facts about the sift routines -/

theorem getD_mem_of_lt (l : List Order) (i : Nat) (h : i < l.length) :
    l.getD i default ∈ l := by
  rw [List.getD_eq_getElem?_getD, List.getElem?_eq_getElem h]
  exact List.getElem_mem h

theorem length_swapL (l : List Order) (i j : Nat) :
    (swapL l i j).length = l.length := by
  simp [swapL]

theorem getD_swapL_fst (l : List Order) {i j : Nat} (hi : i < l.length)
    (hj : j < l.length) : (swapL l i j).getD i default = l.getD j default := by
  by_cases hij : i = j
  · subst hij
    simp [swapL, List.getD_eq_getElem?_getD, List.getElem?_set,
      List.length_set, hi]
  · simp [swapL, List.getD_eq_getElem?_getD, List.getElem?_set,
      List.length_set, hi, hj, Ne.symm hij]

theorem getD_swapL_snd (l : List Order) {i j : Nat} (hj : j < l.length) :
    (swapL l i j).getD j default = l.getD i default := by
  simp [swapL, List.getD_eq_getElem?_getD, List.getElem?_set,
    List.length_set, hj]

theorem getD_swapL_other (l : List Order) {i j k : Nat} (hki : k ≠ i)
    (hkj : k ≠ j) : (swapL l i j).getD k default = l.getD k default := by
  simp [swapL, List.getD_eq_getElem?_getD, List.getElem?_set,
    (Ne.symm hki), (Ne.symm hkj)]

theorem mem_swapL {l : List Order} {i j : Nat} {a : Order}
    (hi : i < l.length) (hj : j < l.length) (h : a ∈ swapL l i j) : a ∈ l := by
  unfold swapL at h
  rcases List.mem_or_eq_of_mem_set h with h' | rfl
  · rcases List.mem_or_eq_of_mem_set h' with h'' | rfl
    · exact h''
    · exact getD_mem_of_lt l j hj
  · exact getD_mem_of_lt l i hi

theorem length_upHeap (cmp : Order → Order → Bool) (l : List Order) (j : Nat) :
    (upHeap cmp l j).length = l.length := by
  induction l, j using upHeap.induct cmp with
  | case1 l j i h => rw [upHeap]; simp only [i] at h; rw [if_pos h]
  | case2 l j i h ih =>
    rw [upHeap]; simp only [i] at *; rw [if_neg h, ih, length_swapL]

theorem mem_upHeap {cmp : Order → Order → Bool} {l : List Order} {j : Nat}
    {a : Order} (hjl : j < l.length) (h : a ∈ upHeap cmp l j) : a ∈ l := by
  induction l, j using upHeap.induct cmp with
  | case1 l j i hc => rw [upHeap] at h; simp only [i] at hc; rw [if_pos hc] at h; exact h
  | case2 l j i hc ih =>
    rw [upHeap] at h
    simp only [i] at *
    rw [if_neg hc] at h
    have hij : (j - 1) / 2 < l.length :=
      lt_of_le_of_lt (Nat.le_trans (Nat.div_le_self _ 2) (Nat.pred_le j)) hjl
    have := ih (by rw [length_swapL]; exact hij) h
    exact mem_swapL hij hjl this

theorem length_downHeap (cmp : Order → Order → Bool) (l : List Order)
    (i n : Nat) : (downHeap cmp l i n).length = l.length := by
  induction l, i, n using downHeap.induct cmp with
  | case1 l i n j1 h => rw [downHeap]; simp only [j1] at h; rw [if_pos h]
  | case2 l i n j1 h j hc =>
    rw [downHeap]; simp only [j1, j] at *; simp only [dite_eq_ite] at *; rw [if_neg h, if_pos hc]
  | case3 l i n j1 h j hc ih =>
    rw [downHeap]; simp only [j1, j] at *; simp only [dite_eq_ite] at *
    rw [if_neg h, if_neg hc, ih, length_swapL]

theorem getD_downHeap_ge (cmp : Order → Order → Bool) (l : List Order)
    (i n : Nat) :
    ∀ k, n ≤ k → (downHeap cmp l i n).getD k default = l.getD k default := by
  induction l, i, n using downHeap.induct cmp with
  | case1 l i n j1 h => intro k hk; rw [downHeap]; simp only [j1] at h; rw [if_pos h]
  | case2 l i n j1 h j hc =>
    intro k hk; rw [downHeap]; simp only [j1, j] at *; simp only [dite_eq_ite] at *; rw [if_neg h, if_pos hc]
  | case3 l i n j1 h j hc ih =>
    intro k hk
    rw [downHeap]; simp only [j1, j] at *; simp only [dite_eq_ite] at *
    rw [if_neg h, if_neg hc]
    rw [ih k hk]
    apply getD_swapL_other
    · omega
    · split
      · next hcond =>
        rw [Bool.and_eq_true, decide_eq_true_eq] at hcond
        omega
      · omega

theorem mem_downHeap (cmp : Order → Order → Bool) (l : List Order) (i n : Nat) :
    ∀ a, i < n → n ≤ l.length → a ∈ downHeap cmp l i n → a ∈ l := by
  induction l, i, n using downHeap.induct cmp with
  | case1 l i n j1 h =>
    intro a _ _ hmem; rw [downHeap] at hmem; simp only [j1] at h
    rwa [if_pos h] at hmem
  | case2 l i n j1 h j hc =>
    intro a _ _ hmem; rw [downHeap] at hmem; simp only [j1, j] at *; simp only [dite_eq_ite] at *
    rwa [if_neg h, if_pos hc] at hmem
  | case3 l i n j1 h j hc ih =>
    intro a hin hnl hmem
    rw [downHeap] at hmem; simp only [j1, j] at *; simp only [dite_eq_ite] at *
    rw [if_neg h, if_neg hc] at hmem
    have hjn : (if decide (2 * i + 2 < n) && cmp (l.getD (2 * i + 2) default) (l.getD (2 * i + 1) default)
        then 2 * i + 2 else 2 * i + 1) < n := by
      split
      · next hcond =>
        rw [Bool.and_eq_true, decide_eq_true_eq] at hcond
        omega
      · omega
    have := ih a hjn (by rwa [length_swapL]) hmem
    exact mem_swapL (lt_of_lt_of_le hin hnl) (lt_of_lt_of_le hjn hnl) this

/-! ## Correctness of the sift routines

`UpInv`/`DownInv` are the classical partial-heap invariants: the heap shape
holds everywhere except (possibly) around the moving index, and the moving
index's neighbours dominate their grandparent, so each swap restores shape
locally. -/

theorem getD_append_lt (l : List Order) (x : Order) (k : Nat)
    (h : k < l.length) : (l ++ [x]).getD k default = l.getD k default := by
  simp [List.getD_eq_getElem?_getD, List.getElem?_append, h]

theorem getD_append_len (l : List Order) (x : Order) :
    (l ++ [x]).getD l.length default = x := by
  simp [List.getD_eq_getElem?_getD, List.getElem?_append]

theorem getD_take_lt (l : List Order) (n k : Nat) (h : k < n) :
    (l.take n).getD k default = l.getD k default := by
  simp [List.getD_eq_getElem?_getD, List.getElem?_take, h]

/-- If the first `n` cells are heap-shaped then the root is a minimum of them
(w.r.t. the complement of `Less`). -/
theorem isHeapN_root_min {cmp : Order → Order → Bool} (hok : LessOK cmp)
    {l : List Order} {n : Nat} (hh : IsHeapN cmp l n) :
    ∀ k, k < n → cmp (l.getD k default) (l.getD 0 default) = false := by
  intro k
  induction k using Nat.strong_induction_on with
  | _ k ih =>
    intro hk
    rcases Nat.eq_zero_or_pos k with rfl | hkpos
    · exact hok.irrefl _
    · have hpar : (k - 1) / 2 < k := by omega
      exact hok.negtrans _ _ _ (hh k hk hkpos) (ih _ hpar (lt_trans hpar hk))

/-- Partial-heap invariant during `up`: shape everywhere except at the edge
`(j, parent j)`, and every child of `j` dominates `j`'s parent. -/
def UpInv (cmp : Order → Order → Bool) (l : List Order) (j : Nat) : Prop :=
  (∀ k, 0 < k → k < l.length → k ≠ j →
      cmp (l.getD k default) (l.getD ((k - 1) / 2) default) = false) ∧
  (0 < j → ∀ c, c < l.length → (c - 1) / 2 = j →
      cmp (l.getD c default) (l.getD ((j - 1) / 2) default) = false)

theorem upHeap_isHeap {cmp : Order → Order → Bool} (hok : LessOK cmp) :
    ∀ l j, j < l.length → UpInv cmp l j → IsHeap cmp (upHeap cmp l j) := by
  intro l j
  induction l, j using upHeap.induct cmp with
  | case1 l j i hc =>
    intro hjl hinv
    rw [upHeap]; simp only [i] at hc; rw [if_pos hc]
    intro k hk hkpos
    by_cases hkj : k = j
    · subst hkj
      rcases hc with hij | hfalse
      · exact absurd hij.symm (by omega)
      · exact hfalse
    · exact hinv.1 k hkpos hk hkj
  | case2 l j i hc ih =>
    intro hjl hinv
    rw [upHeap]; simp only [i] at *; rw [if_neg hc]
    push_neg at hc
    obtain ⟨hij, htrue'⟩ := hc
    have htrue : cmp (l.getD j default) (l.getD ((j - 1) / 2) default) = true := by
      cases h' : cmp (l.getD j default) (l.getD ((j - 1) / 2) default)
      · exact absurd h' htrue'
      · rfl
    have hjpos : 0 < j := by omega
    have hilt : (j - 1) / 2 < j := by omega
    have hil : (j - 1) / 2 < l.length := lt_trans hilt hjl
    have hswlen : (swapL l ((j - 1) / 2) j).length = l.length := length_swapL ..
    have hvi : (swapL l ((j - 1) / 2) j).getD ((j - 1) / 2) default
        = l.getD j default := getD_swapL_fst l hil hjl
    have hvj : (swapL l ((j - 1) / 2) j).getD j default
        = l.getD ((j - 1) / 2) default := getD_swapL_snd l hjl
    apply ih (by omega)
    constructor
    · intro k hkpos hkl hki
      rw [hswlen] at hkl
      rcases ne_or_eq k j with hkj | rfl
      · have hvk : (swapL l ((j - 1) / 2) j).getD k default
            = l.getD k default := getD_swapL_other l hki hkj
        by_cases hpkj : (k - 1) / 2 = j
        · rw [hvk, hpkj, hvj]
          exact hinv.2 hjpos k hkl hpkj
        · by_cases hpki : (k - 1) / 2 = (j - 1) / 2
          · rw [hvk, hpki, hvi]
            have h1 : cmp (l.getD k default) (l.getD ((k - 1) / 2) default) = false :=
              hinv.1 k hkpos hkl hkj
            rw [hpki] at h1
            cases hcase : cmp (l.getD k default) (l.getD j default)
            · rfl
            · exact absurd (hok.trans _ _ _ hcase htrue) (by rw [h1]; simp)
          · rw [hvk, getD_swapL_other l hpki hpkj]
            exact hinv.1 k hkpos hkl hkj
      · rw [hvj, hvi]
        exact hok.asym _ _ htrue
    · intro hipos c hcl hpc
      rw [hswlen] at hcl
      have hcij : (j - 1) / 2 < c := by omega
      have hcnei : c ≠ (j - 1) / 2 := by omega
      have hgp : ((j - 1) / 2 - 1) / 2 ≠ (j - 1) / 2 := by omega
      have hgpj : ((j - 1) / 2 - 1) / 2 ≠ j := by omega
      rw [getD_swapL_other l hgp hgpj]
      by_cases hcj : c = j
      · subst hcj
        rw [getD_swapL_snd l hjl]
        exact hinv.1 _ hipos hil (by omega)
      · rw [getD_swapL_other l hcnei hcj]
        have h1 : cmp (l.getD c default) (l.getD ((j - 1) / 2) default) = false := by
          have := hinv.1 c (by omega) hcl hcj
          rwa [hpc] at this
        have h2 : cmp (l.getD ((j - 1) / 2) default)
            (l.getD (((j - 1) / 2 - 1) / 2) default) = false :=
          hinv.1 _ hipos hil (by omega)
        exact hok.negtrans _ _ _ h1 h2

/-- `heap.Push` preserves the heap shape. -/
theorem heapPush_isHeap {cmp : Order → Order → Bool} (hok : LessOK cmp)
    {l : List Order} (hh : IsHeap cmp l) (x : Order) :
    IsHeap cmp (heapPush cmp l x) := by
  apply upHeap_isHeap hok (l ++ [x]) l.length (by simp)
  constructor
  · intro k hkpos hkl hkj
    rw [List.length_append] at hkl
    have hkl' : k < l.length := by simp at hkl; omega
    have hpk : (k - 1) / 2 < l.length := by omega
    rw [getD_append_lt l x k hkl', getD_append_lt l x _ hpk]
    exact hh k hkl' hkpos
  · intro hpos c hcl hpc
    rw [List.length_append] at hcl
    exfalso
    simp at hcl
    omega

/-- Partial-heap invariant during `down`: shape everywhere except (possibly)
between `i` and its children, and (if `i` is not the root) the children of `i`
dominate `i`'s parent. -/
def DownInv (cmp : Order → Order → Bool) (l : List Order) (i n : Nat) : Prop :=
  (∀ k, 0 < k → k < n → (k - 1) / 2 ≠ i →
      cmp (l.getD k default) (l.getD ((k - 1) / 2) default) = false) ∧
  (0 < i → ∀ c, c < n → (c - 1) / 2 = i →
      cmp (l.getD c default) (l.getD ((i - 1) / 2) default) = false)

theorem downHeap_isHeapN {cmp : Order → Order → Bool} (hok : LessOK cmp) :
    ∀ l i n, n ≤ l.length → DownInv cmp l i n →
      IsHeapN cmp (downHeap cmp l i n) n := by
  intro l i n
  induction l, i, n using downHeap.induct cmp with
  | case1 l i n j1 h =>
    intro hn hinv
    rw [downHeap]; simp only [j1] at h; rw [if_pos h]
    intro k hk hkpos
    by_cases hpk : (k - 1) / 2 = i
    · exfalso; omega
    · exact hinv.1 k hkpos hk hpk
  | case2 l i n j1 h j hc =>
    intro hn hinv
    rw [downHeap]; simp only [j1, j] at *; simp only [dite_eq_ite] at *
    rw [if_neg h, if_pos hc]
    intro k hk hkpos
    by_cases hpk : (k - 1) / 2 = i
    · -- k is a child of i; use the break condition and min-child selection
      have hk12 : k = 2 * i + 1 ∨ k = 2 * i + 2 := by omega
      rcases hbool : (decide (2 * i + 2 < n) && cmp (l.getD (2 * i + 2) default) (l.getD (2 * i + 1) default)) with hfals | htru
      · -- the left child was selected
        rw [hbool, if_neg (by simp)] at hc
        rw [Bool.and_eq_false_iff] at hbool
        rcases hk12 with rfl | rfl
        · rw [hpk]; exact hc
        · rw [hpk]
          rcases hbool with hlt | hsel
          · exfalso; rw [decide_eq_false_iff_not] at hlt; omega
          · exact hok.negtrans _ _ _ hsel hc
      · -- the right child was selected
        rw [hbool, if_pos rfl] at hc
        rw [Bool.and_eq_true, decide_eq_true_eq] at hbool
        rcases hk12 with rfl | rfl
        · rw [hpk]
          cases hcase : cmp (l.getD (2 * i + 1) default) (l.getD i default)
          · rfl
          · exact absurd (hok.trans _ _ _ hbool.2 hcase) (by rw [hc]; simp)
        · rw [hpk]; exact hc
    · exact hinv.1 k hkpos hk hpk
  | case3 l i n j1 h j hc ih =>
    intro hn hinv
    rw [downHeap]; simp only [j1, j] at *; simp only [dite_eq_ite] at *
    rw [if_neg h, if_neg hc]
    -- name the selected child J and collect its basic facts
    set J : Nat := if decide (2 * i + 2 < n) && cmp (l.getD (2 * i + 2) default) (l.getD (2 * i + 1) default)
        then 2 * i + 2 else 2 * i + 1 with hJ
    have hJfacts : (J = 2 * i + 1 ∨ J = 2 * i + 2) ∧ J < n := by
      rw [hJ]; split
      · next hb => rw [Bool.and_eq_true, decide_eq_true_eq] at hb
                   exact ⟨Or.inr rfl, hb.1⟩
      · exact ⟨Or.inl rfl, by omega⟩
    have hJlt : J < n := hJfacts.2
    have hJgt : i < J := by rcases hJfacts.1 with h' | h' <;> omega
    have hpJ : (J - 1) / 2 = i := by rcases hJfacts.1 with h' | h' <;> omega
    have hiltn : i < n := by omega
    have hilen : i < l.length := lt_of_lt_of_le hiltn hn
    have hJlen : J < l.length := lt_of_lt_of_le hJlt hn
    have htrue : cmp (l.getD J default) (l.getD i default) = true := by
      cases h' : cmp (l.getD J default) (l.getD i default)
      · exact absurd h' hc
      · rfl
    -- the sibling of J (if any) dominates J
    have hmin : ∀ c, 0 < c → c < n → (c - 1) / 2 = i → c ≠ J →
        cmp (l.getD c default) (l.getD J default) = false := by
      intro c hcpos hcn hpc hcJ
      have hc12 : c = 2 * i + 1 ∨ c = 2 * i + 2 := by omega
      rcases hbool : (decide (2 * i + 2 < n) && cmp (l.getD (2 * i + 2) default) (l.getD (2 * i + 1) default)) with hfals | htru
      · have hJval : J = 2 * i + 1 := by rw [hJ, hbool, if_neg (by simp)]
        rw [Bool.and_eq_false_iff] at hbool
        rcases hc12 with rfl | rfl
        · exact absurd hJval.symm (by omega)
        · rcases hbool with hlt | hsel
          · exfalso; rw [decide_eq_false_iff_not] at hlt; omega
          · rw [hJval]; exact hsel
      · have hJval : J = 2 * i + 2 := by rw [hJ, hbool, if_pos rfl]
        rw [Bool.and_eq_true, decide_eq_true_eq] at hbool
        rcases hc12 with rfl | rfl
        · rw [hJval]; exact hok.asym _ _ hbool.2
        · exact absurd hJval.symm (by omega)
    have hswlen : (swapL l i J).length = l.length := length_swapL ..
    have hvi : (swapL l i J).getD i default = l.getD J default :=
      getD_swapL_fst l hilen hJlen
    have hvJ : (swapL l i J).getD J default = l.getD i default :=
      getD_swapL_snd l hJlen
    apply ih (by rw [hswlen]; exact hn)
    constructor
    · intro k hkpos hkn hpkJ
      by_cases hkJ : k = J
      · subst hkJ
        rw [hvJ, hpJ, hvi]
        exact hok.asym _ _ htrue
      · by_cases hki : k = i
        · subst hki
          have hppk : (k - 1) / 2 < k := by omega
          have hpkk : (k - 1) / 2 ≠ k := by omega
          have hpkJ' : (k - 1) / 2 ≠ J := by omega
          rw [hvi, getD_swapL_other l hpkk hpkJ']
          exact hinv.2 hkpos J hJlt hpJ
        · have hvk : (swapL l i J).getD k default = l.getD k default :=
            getD_swapL_other l hki hkJ
          by_cases hpki : (k - 1) / 2 = i
          · -- k is the sibling of J
            rw [hvk, hpki, hvi]
            exact hmin k hkpos hkn hpki hkJ
          · have hpv : (swapL l i J).getD ((k - 1) / 2) default
                = l.getD ((k - 1) / 2) default :=
              getD_swapL_other l hpki hpkJ
            rw [hvk, hpv]
            exact hinv.1 k hkpos hkn hpki
    · intro hJpos c hcn hpc
      have hcgt : J < c := by omega
      have hcI : c ≠ i := by omega
      have hcJ : c ≠ J := by omega
      rw [hpJ, hvi, getD_swapL_other l hcI hcJ]
      have h1 := hinv.1 c (by omega) hcn (by omega)
      rwa [hpc] at h1

/-- `heap.Pop` leaves the remaining `n-1` elements heap-shaped. -/
theorem heapPop_isHeap {cmp : Order → Order → Bool} (hok : LessOK cmp)
    {l : List Order} (hh : IsHeap cmp l) : IsHeap cmp (heapPop cmp l).2 := by
  unfold heapPop
  simp only
  set n := l.length - 1 with hn
  have hswlen : (swapL l 0 n).length = l.length := length_swapL ..
  have hinv : DownInv cmp (swapL l 0 n) 0 n := by
    constructor
    · intro k hkpos hkn hpk
      have hkne : k ≠ n := by omega
      have hpkn : (k - 1) / 2 ≠ n := by omega
      rw [getD_swapL_other l (by omega) hkne,
        getD_swapL_other l hpk hpkn]
      exact hh k (by omega) hkpos
    · intro h0; exact absurd h0 (by omega)
  have hheap : IsHeapN cmp (downHeap cmp (swapL l 0 n) 0 n) n :=
    downHeap_isHeapN hok _ 0 n (by omega) hinv
  have hlen2 : (downHeap cmp (swapL l 0 n) 0 n).length = l.length := by
    rw [length_downHeap, hswlen]
  intro k hk hkpos
  rw [List.length_take, hlen2] at hk
  have hkn : k < n := by omega
  rw [getD_take_lt _ n k hkn, getD_take_lt _ n _ (by omega)]
  exact hheap k hkn hkpos

/-- Elements of a pushed heap come from the old heap or are the new element. -/
theorem mem_heapPush {cmp : Order → Order → Bool} {l : List Order} {x a : Order}
    (h : a ∈ heapPush cmp l x) : a ∈ l ∨ a = x := by
  unfold heapPush at h
  have := mem_upHeap (by simp) h
  rcases List.mem_append.mp this with h' | h'
  · exact Or.inl h'
  · exact Or.inr (List.mem_singleton.mp h')

/-- Elements remaining after a pop were in the heap before. -/
theorem mem_heapPop {cmp : Order → Order → Bool} {l : List Order} {a : Order}
    (hl : l ≠ []) (h : a ∈ (heapPop cmp l).2) : a ∈ l := by
  unfold heapPop at h
  simp only at h
  have hlen : 0 < l.length := List.length_pos.mpr hl
  have h1 : a ∈ downHeap cmp (swapL l 0 (l.length - 1)) 0 (l.length - 1) :=
    List.mem_of_mem_take h
  rcases Nat.eq_zero_or_pos (l.length - 1) with hz | hp
  · rw [hz] at h1
    rw [downHeap] at h1
    simp only [Nat.le_add_left, if_pos] at h1
    exact mem_swapL (by omega) (by omega) h1
  · have h2 := mem_downHeap cmp _ 0 (l.length - 1) a (by omega)
      (by rw [length_swapL]; omega) h1
    exact mem_swapL (by omega) (by omega) h2

/-- Popping a nonempty heap shortens it by one. -/
theorem length_heapPop (cmp : Order → Order → Bool) (l : List Order) :
    (heapPop cmp l).2.length = l.length - 1 := by
  unfold heapPop
  simp only [List.length_take, length_downHeap, length_swapL]
  omega


/-! ## orderbook.go — the order book and the matching loop

`OrderBook.matchBuy` and `OrderBook.matchSell` are the same loop up to
(a) which side is consumed, (b) the direction of the limit-price gate, and
(c) the argument order of `newTrade`.  `matchLoop` is that common body,
with the three differences as parameters; the two methods instantiate it
exactly as the Go source reads. -/

structure OrderBook where
  symbol : String
  bids : List Order
  asks : List Order
  deriving Repr, DecidableEq, Inhabited

/-- `func NewOrderBook(symbol string) *OrderBook` — two empty heaps
(`heap.Init` on an empty slice is a no-op). -/
def NewOrderBook (symbol : String) : OrderBook :=
  { symbol := symbol, bids := [], asks := [] }

/-- Result of the matching loop: accumulated trades, the incoming order
(its `Filled` updated in place), the opposite-side heap, and the trade-id
counter. -/
structure LoopOut where
  trades : List Trade
  inc : Order
  opp : List Order
  seq : Nat
  deriving Repr, DecidableEq, Inhabited

/-- The `for` loop shared by `matchBuy` and `matchSell`:
lazy deletion of inactive tops, the limit-price gate, execution at the
passive (resting) order's price, fill bookkeeping, and removal of
fully-filled passive orders. -/
def matchLoop (cmp : Order → Order → Bool) (priceTooFar : ℚ → ℚ → Bool)
    (mk : Nat → Order → Order → Int → Trade)
    (incoming : Order) (opp : List Order) (seq : Nat) (acc : List Trade) :
    LoopOut :=
  if h : 0 < opp.length ∧ 0 < incoming.Remaining then
    let best := opp.getD 0 default
    if best.IsActive = false then
      -- lazy deletion: drop the inactive top and continue
      matchLoop cmp priceTooFar mk incoming (heapPop cmp opp).2 seq acc
    else if incoming.Typ = Limit ∧ priceTooFar incoming.Price best.Price = true then
      -- price gate: no match possible, stop
      ⟨acc, incoming, opp, seq⟩
    else
      let qty := min incoming.Remaining best.Remaining
      let trade := mk (seq + 1) incoming best qty
      let incoming' := { incoming with Filled := incoming.Filled + qty }
      let best' := { best with Filled := best.Filled + qty }
      if best'.IsFilled then
        let opp1 := opp.set 0 { best' with Status := StatusFilled }
        matchLoop cmp priceTooFar mk incoming' (heapPop cmp opp1).2 (seq + 1)
          (acc ++ [trade])
      else
        let opp1 := opp.set 0 { best' with Status := StatusPartial }
        matchLoop cmp priceTooFar mk incoming' opp1 (seq + 1) (acc ++ [trade])
  else ⟨acc, incoming, opp, seq⟩
termination_by (opp.length, incoming.Remaining.toNat)
decreasing_by
  · exact Prod.Lex.left _ _ (by rw [length_heapPop]; omega)
  · exact Prod.Lex.left _ _ (by rw [length_heapPop, List.length_set]; omega)
  · simp only [List.length_set]
    apply Prod.Lex.right
    simp only [incoming', best', qty, best, Order.IsFilled, Order.Remaining,
      decide_eq_true_eq, not_le] at *
    omega

/-- `func (ob *OrderBook) finalizeOrder(o *Order, book heap.Interface)` —
the incoming order's final status, and insertion into its own side when a
LIMIT residual rests. -/
def finalizeOrder (cmp : Order → Order → Bool) (o : Order)
    (book : List Order) : Order × List Order :=
  if o.IsFilled then ({ o with Status := StatusFilled }, book)
  else if o.Typ = IOC then ({ o with Status := StatusCancelled }, book)
  else if o.Typ = Market ∧ 0 < o.Remaining then
    ({ o with Status := StatusCancelled }, book)
  else if o.Typ = Limit ∧ 0 < o.Remaining then
    let o' := if 0 < o.Filled then { o with Status := StatusPartial } else o
    (o', heapPush cmp book o')
  else (o, book)

/-- Result of a book submit: trades, the incoming order after the call, the
book, and the trade-id counter. -/
structure SubmitOut where
  trades : List Trade
  inc : Order
  book : OrderBook
  seq : Nat
  deriving Repr, DecidableEq, Inhabited

/-- `func (ob *OrderBook) matchBuy(incoming *Order) []Trade`. -/
def OrderBook.matchBuy (ob : OrderBook) (incoming : Order) (seq : Nat) :
    SubmitOut :=
  let r := matchLoop askLess (fun ip ap => decide (ip < ap))
    (fun s inc best q => newTrade s ob.symbol inc.ID best.ID best.Price q inc.Timestamp)
    incoming ob.asks seq []
  let f := finalizeOrder bidLess r.inc ob.bids
  ⟨r.trades, f.1, { ob with asks := r.opp, bids := f.2 }, r.seq⟩

/-- `func (ob *OrderBook) matchSell(incoming *Order) []Trade`. -/
def OrderBook.matchSell (ob : OrderBook) (incoming : Order) (seq : Nat) :
    SubmitOut :=
  let r := matchLoop bidLess (fun ip bp => decide (ip > bp))
    (fun s inc best q => newTrade s ob.symbol best.ID inc.ID best.Price q inc.Timestamp)
    incoming ob.bids seq []
  let f := finalizeOrder askLess r.inc ob.asks
  ⟨r.trades, f.1, { ob with bids := r.opp, asks := f.2 }, r.seq⟩

/-- `func (ob *OrderBook) match(incoming *Order) []Trade` (`match` is a Lean
keyword, hence `matchO`): dispatch on the side; an unrecognised side produces
no trades and leaves the book untouched. -/
def OrderBook.matchO (ob : OrderBook) (incoming : Order) (seq : Nat) :
    SubmitOut :=
  if incoming.Side = Buy then ob.matchBuy incoming seq
  else if incoming.Side = Sell then ob.matchSell incoming seq
  else ⟨[], incoming, ob, seq⟩

/-- `func (ob *OrderBook) Submit(incoming *Order) []Trade` (the mutex is a
concurrency artefact; under the writer lock the behaviour is `match`). -/
def OrderBook.Submit (ob : OrderBook) (incoming : Order) (seq : Nat) :
    SubmitOut :=
  ob.matchO incoming seq

/-- The scan inside `OrderBook.Cancel` over one side: find the first order
with the given id that is still active, mark it CANCELLED in place. -/
def cancelScan (orderID : Nat) : List Order → Option (List Order)
  | [] => none
  | o :: rest =>
    if o.ID = orderID ∧ o.IsActive = true then
      some ({ o with Status := StatusCancelled } :: rest)
    else
      (cancelScan orderID rest).map (o :: ·)

/-- `func (ob *OrderBook) Cancel(orderID uint64) bool` — scan bids then asks;
lazy deletion (the order stays in its heap). -/
def OrderBook.Cancel (ob : OrderBook) (orderID : Nat) : Bool × OrderBook :=
  match cancelScan orderID ob.bids with
  | some bids' => (true, { ob with bids := bids' })
  | none =>
    match cancelScan orderID ob.asks with
    | some asks' => (true, { ob with asks := asks' })
    | none => (false, ob)

/-- `func (ob *OrderBook) BestBid() (float64, bool)` — inspects only the top
of the heap; the loop body executes at most once because every path ends in
`return` or `break`. -/
def OrderBook.BestBid (ob : OrderBook) : ℚ × Bool :=
  match ob.bids with
  | [] => (0, false)
  | top :: _ => if top.IsActive then (top.Price, true) else (0, false)

/-- `func (ob *OrderBook) BestAsk() (float64, bool)`. -/
def OrderBook.BestAsk (ob : OrderBook) : ℚ × Bool :=
  match ob.asks with
  | [] => (0, false)
  | top :: _ => if top.IsActive then (top.Price, true) else (0, false)

/-! ## gateway.go — validation and routing -/

/-- `type ValidationError struct { Field, Message string }`.  The Go messages
interpolate runtime values via `fmt.Sprintf`; only the static text is kept. -/
structure ValidationError where
  Field : String
  Message : String
  deriving Repr, DecidableEq, Inhabited

/-- `func validateOrder(o *Order) error` — the checks in source order. -/
def validateOrder : Option Order → Option ValidationError
  | none => some { Field := "order", Message := "ordre nil" }
  | some o =>
    if o.Symbol = "" then
      some { Field := "symbol", Message := "symbole vide" }
    else if o.Side ≠ Buy ∧ o.Side ≠ Sell then
      some { Field := "side", Message := "cote invalide" }
    else if o.Typ ≠ Limit ∧ o.Typ ≠ Market ∧ o.Typ ≠ IOC then
      some { Field := "type", Message := "type invalide" }
    else if o.Quantity ≤ 0 then
      some { Field := "quantity", Message := "quantite doit etre > 0" }
    else if o.Typ = Limit ∧ o.Price ≤ 0 then
      some { Field := "price", Message := "prix limite doit etre > 0" }
    else if o.Typ = Limit ∧ o.Price > 1000000 then
      some { Field := "price", Message := "prix anormalement eleve" }
    else none

/-- `type Gateway struct { books map[string]*OrderBook; log *TradeLog }`.
The map is an association list with first-match lookup and update; the
nil-able `*TradeLog` is an `Option`. -/
structure Gateway where
  books : List (String × OrderBook)
  log : Option (List Trade)
  deriving Repr, DecidableEq, Inhabited

/-- `gw.books[symbol]` (map read). -/
def lookupBook : List (String × OrderBook) → String → Option OrderBook
  | [], _ => none
  | p :: rest, s => if p.1 = s then some p.2 else lookupBook rest s

/-- Map write-back of the (pointer-shared) book after a submit or cancel. -/
def updateBooks : List (String × OrderBook) → String → OrderBook →
    List (String × OrderBook)
  | [], _, _ => []
  | p :: rest, s, b => if p.1 = s then (p.1, b) :: rest else p :: updateBooks rest s b

/-- `func NewGateway(symbols []string, log *TradeLog) *Gateway`. -/
def NewGateway (symbols : List String) (log : Option (List Trade)) : Gateway :=
  { books := symbols.map (fun s => (s, NewOrderBook s)), log := log }

/-- The two error shapes `Gateway.Submit` can return. -/
inductive SubmitErr where
  | validation (e : ValidationError)
  | unknownSymbol (s : String)
  deriving Repr, DecidableEq

/-- A Go computation that may panic (nil-pointer dereference). -/
inductive GoResult (α : Type) where
  | panicked
  | ok (val : α)
  deriving Repr, DecidableEq

/-- `func (gw *Gateway) Submit(o *Order) ([]Trade, error)`.

When `o` is nil, `validateOrder` returns the `"order"` error and the
rejection path then executes `o.Status = StatusRejected` — a nil-pointer
dereference, i.e. a runtime panic, modelled as `GoResult.panicked`. -/
def Gateway.Submit (gw : Gateway) (o? : Option Order) (seq : Nat) :
    GoResult (List Trade × Option SubmitErr × Order × Gateway × Nat) :=
  match o? with
  | none => .panicked
  | some o =>
    match validateOrder (some o) with
    | some e =>
      .ok ([], some (.validation e), { o with Status := StatusRejected }, gw, seq)
    | none =>
      match lookupBook gw.books o.Symbol with
      | none =>
        .ok ([], some (.unknownSymbol o.Symbol),
          { o with Status := StatusRejected }, gw, seq)
      | some book =>
        let r := book.Submit o seq
        .ok (r.trades, none, r.inc,
          { books := updateBooks gw.books o.Symbol r.book,
            log := gw.log.map (· ++ r.trades) }, r.seq)

/-- The error shapes of `Gateway.Cancel`. -/
inductive CancelErr where
  | unknownSymbol (s : String)
  | notFound (orderID : Nat)
  deriving Repr, DecidableEq

/-- `func (gw *Gateway) Cancel(symbol string, orderID uint64) error`. -/
def Gateway.Cancel (gw : Gateway) (symbol : String) (orderID : Nat) :
    Option CancelErr × Gateway :=
  match lookupBook gw.books symbol with
  | none => (some (.unknownSymbol symbol), gw)
  | some book =>
    let r := book.Cancel orderID
    let gw' := { gw with books := updateBooks gw.books symbol r.2 }
    if r.1 then (none, gw') else (some (.notFound orderID), gw')


/-! ## Facts the matching loop preserves -/

/-- Decoded form of `askLess … = false`: the right order is at least as good
as (no worse than) the left one on the ask side. -/
theorem askLess_false_iff (a b : Order) :
    askLess a b = false ↔
      (b.Price < a.Price ∨ (a.Price = b.Price ∧ b.Timestamp ≤ a.Timestamp)) := by
  rw [askLess_eq_lexLess, lexLess_false_iff]

/-- Decoded form of `bidLess … = false`. -/
theorem bidLess_false_iff (a b : Order) :
    bidLess a b = false ↔
      (a.Price < b.Price ∨ (a.Price = b.Price ∧ b.Timestamp ≤ a.Timestamp)) := by
  rw [bidLess_eq_lexLess, lexLess_false_iff]
  dsimp only
  constructor
  · rintro (h | ⟨h1, h2⟩)
    · exact Or.inl (by linarith)
    · exact Or.inr ⟨by linarith, h2⟩
  · rintro (h | ⟨h1, h2⟩)
    · exact Or.inl (by linarith)
    · exact Or.inr ⟨by linarith, h2⟩

/-- During matching an order in a heap is only ever touched in its `Filled`
and `Status` fields, and a touched order never becomes active. -/
def MutOf (o' o : Order) : Prop :=
  o'.ID = o.ID ∧ o'.Symbol = o.Symbol ∧ o'.Side = o.Side ∧ o'.Typ = o.Typ ∧
  o'.Price = o.Price ∧ o'.Quantity = o.Quantity ∧ o'.Timestamp = o.Timestamp ∧
  (o'.IsActive = true → o.IsActive = true)

theorem MutOf.refl (o : Order) : MutOf o o :=
  ⟨rfl, rfl, rfl, rfl, rfl, rfl, rfl, fun h => h⟩

theorem MutOf.comp {o'' o' o : Order} (h1 : MutOf o'' o') (h2 : MutOf o' o) :
    MutOf o'' o :=
  ⟨h1.1.trans h2.1, h1.2.1.trans h2.2.1, h1.2.2.1.trans h2.2.2.1,
   h1.2.2.2.1.trans h2.2.2.2.1, h1.2.2.2.2.1.trans h2.2.2.2.2.1,
   h1.2.2.2.2.2.1.trans h2.2.2.2.2.2.1,
   h1.2.2.2.2.2.2.1.trans h2.2.2.2.2.2.2.1,
   fun h => h2.2.2.2.2.2.2.2 (h1.2.2.2.2.2.2.2 h)⟩

/-- Heap shape only depends on the (price, timestamp) keys. -/
theorem isHeapN_congr {cmp : Order → Order → Bool} (hok : LessOK cmp)
    {l l' : List Order} {n : Nat}
    (hkey : ∀ k, k < n → (l'.getD k default).Price = (l.getD k default).Price ∧
        (l'.getD k default).Timestamp = (l.getD k default).Timestamp)
    (hh : IsHeapN cmp l n) : IsHeapN cmp l' n := by
  intro j hj hjpos
  have h1 := hh j hj hjpos
  obtain ⟨e1, e2⟩ := hkey j hj
  obtain ⟨e3, e4⟩ := hkey ((j - 1) / 2) (by omega)
  have k1 := (hok.keyed _ _ (l'.getD ((j - 1) / 2) default) e1 e2).1
  have k2 := (hok.keyed _ _ (l.getD j default) e3 e4).2
  rw [k1, k2, h1]

/-- Overwriting a heap cell with an order carrying the same key keeps the
shape (used for in-place `Filled`/`Status` updates of the top). -/
theorem isHeap_set_keyed {cmp : Order → Order → Bool} (hok : LessOK cmp)
    {l : List Order} {k : Nat} {o : Order}
    (hp : o.Price = (l.getD k default).Price)
    (ht : o.Timestamp = (l.getD k default).Timestamp)
    (hh : IsHeap cmp l) : IsHeap cmp (l.set k o) := by
  have hlen : (l.set k o).length = l.length := List.length_set ..
  unfold IsHeap
  rw [hlen]
  apply isHeapN_congr hok _ hh
  intro m hm
  by_cases hmk : m = k
  · subst hmk
    rw [List.getD_eq_getElem?_getD, List.getElem?_set_eq (by omega),
      Option.getD_some, hp, ht]
    exact ⟨rfl, rfl⟩
  · rw [List.getD_eq_getElem?_getD, List.getElem?_set_ne (Ne.symm hmk),
      ← List.getD_eq_getElem?_getD]
    exact ⟨rfl, rfl⟩

/-! ### One-step unfolding equations for `matchLoop` -/

theorem matchLoop_eq_inactive {cmp : Order → Order → Bool} {ptf : ℚ → ℚ → Bool}
    {mk : Nat → Order → Order → Int → Trade} {incoming : Order}
    {opp : List Order} {seq : Nat} {acc : List Trade}
    (hguard : 0 < opp.length ∧ 0 < incoming.Remaining)
    (hact : (opp.getD 0 default).IsActive = false) :
    matchLoop cmp ptf mk incoming opp seq acc
      = matchLoop cmp ptf mk incoming (heapPop cmp opp).2 seq acc := by
  conv_lhs => rw [matchLoop]
  rw [dif_pos hguard]
  dsimp only
  rw [if_pos hact]

theorem matchLoop_eq_gate {cmp : Order → Order → Bool} {ptf : ℚ → ℚ → Bool}
    {mk : Nat → Order → Order → Int → Trade} {incoming : Order}
    {opp : List Order} {seq : Nat} {acc : List Trade}
    (hguard : 0 < opp.length ∧ 0 < incoming.Remaining)
    (hact : (opp.getD 0 default).IsActive = true)
    (hgate : incoming.Typ = Limit ∧
      ptf incoming.Price (opp.getD 0 default).Price = true) :
    matchLoop cmp ptf mk incoming opp seq acc = ⟨acc, incoming, opp, seq⟩ := by
  conv_lhs => rw [matchLoop]
  rw [dif_pos hguard]
  dsimp only
  rw [if_neg (by rw [hact]; simp), if_pos hgate]

theorem matchLoop_eq_fill {cmp : Order → Order → Bool} {ptf : ℚ → ℚ → Bool}
    {mk : Nat → Order → Order → Int → Trade} {incoming : Order}
    {opp : List Order} {seq : Nat} {acc : List Trade}
    (hguard : 0 < opp.length ∧ 0 < incoming.Remaining)
    (hact : (opp.getD 0 default).IsActive = true)
    (hgate : ¬(incoming.Typ = Limit ∧
      ptf incoming.Price (opp.getD 0 default).Price = true))
    (hfill : ({ opp.getD 0 default with
        Filled := (opp.getD 0 default).Filled
          + (min incoming.Remaining (opp.getD 0 default).Remaining) }).IsFilled
        = true) :
    matchLoop cmp ptf mk incoming opp seq acc
      = matchLoop cmp ptf mk
          { incoming with Filled := incoming.Filled
              + (min incoming.Remaining (opp.getD 0 default).Remaining) }
          (heapPop cmp (opp.set 0 { opp.getD 0 default with
              Filled := (opp.getD 0 default).Filled
                + (min incoming.Remaining (opp.getD 0 default).Remaining),
              Status := StatusFilled })).2
          (seq + 1)
          (acc ++ [mk (seq + 1) incoming (opp.getD 0 default)
            (min incoming.Remaining (opp.getD 0 default).Remaining)]) := by
  conv_lhs => rw [matchLoop]
  rw [dif_pos hguard]
  dsimp only
  rw [if_neg (by rw [hact]; simp), if_neg hgate, if_pos hfill]

theorem matchLoop_eq_partfill {cmp : Order → Order → Bool} {ptf : ℚ → ℚ → Bool}
    {mk : Nat → Order → Order → Int → Trade} {incoming : Order}
    {opp : List Order} {seq : Nat} {acc : List Trade}
    (hguard : 0 < opp.length ∧ 0 < incoming.Remaining)
    (hact : (opp.getD 0 default).IsActive = true)
    (hgate : ¬(incoming.Typ = Limit ∧
      ptf incoming.Price (opp.getD 0 default).Price = true))
    (hfill : ({ opp.getD 0 default with
        Filled := (opp.getD 0 default).Filled
          + (min incoming.Remaining (opp.getD 0 default).Remaining) }).IsFilled
        = false) :
    matchLoop cmp ptf mk incoming opp seq acc
      = matchLoop cmp ptf mk
          { incoming with Filled := incoming.Filled
              + (min incoming.Remaining (opp.getD 0 default).Remaining) }
          (opp.set 0 { opp.getD 0 default with
              Filled := (opp.getD 0 default).Filled
                + (min incoming.Remaining (opp.getD 0 default).Remaining),
              Status := StatusPartial })
          (seq + 1)
          (acc ++ [mk (seq + 1) incoming (opp.getD 0 default)
            (min incoming.Remaining (opp.getD 0 default).Remaining)]) := by
  conv_lhs => rw [matchLoop]
  rw [dif_pos hguard]
  dsimp only
  rw [if_neg (by rw [hact]; simp), if_neg hgate, if_neg (by rw [hfill]; simp)]

theorem matchLoop_eq_stop {cmp : Order → Order → Bool} {ptf : ℚ → ℚ → Bool}
    {mk : Nat → Order → Order → Int → Trade} {incoming : Order}
    {opp : List Order} {seq : Nat} {acc : List Trade}
    (hguard : ¬(0 < opp.length ∧ 0 < incoming.Remaining)) :
    matchLoop cmp ptf mk incoming opp seq acc = ⟨acc, incoming, opp, seq⟩ := by
  conv_lhs => rw [matchLoop]
  rw [dif_neg hguard]

theorem bool_eq_true_of_ne_false {b : Bool} (h : ¬b = false) : b = true := by
  cases b
  · exact absurd rfl h
  · rfl

/-- A fully-filled passive order (status FILLED) is a matching-mutation of
the original. -/
theorem mutOf_fill (o : Order) (f : Int) :
    MutOf { o with Filled := f, Status := StatusFilled } o := by
  refine ⟨rfl, rfl, rfl, rfl, rfl, rfl, rfl, ?_⟩
  intro h
  simp [Order.IsActive, StatusFilled, StatusOpen, StatusPartial] at h

/-- A partially-filled passive order (status PARTIAL) is a matching-mutation
of the original, provided the original was active. -/
theorem mutOf_partfill (o : Order) (hact : o.IsActive = true) (f : Int) :
    MutOf { o with Filled := f, Status := StatusPartial } o :=
  ⟨rfl, rfl, rfl, rfl, rfl, rfl, rfl, fun _ => hact⟩

/-- L1: the matching loop keeps the opposite side heap-shaped. -/
theorem matchLoop_isHeap {cmp : Order → Order → Bool} {ptf : ℚ → ℚ → Bool}
    {mk : Nat → Order → Order → Int → Trade} (hok : LessOK cmp) :
    ∀ incoming opp seq acc, IsHeap cmp opp →
      IsHeap cmp (matchLoop cmp ptf mk incoming opp seq acc).opp := by
  intro incoming opp seq acc
  induction incoming, opp, seq, acc using matchLoop.induct cmp ptf mk with
  | case1 incoming opp seq acc h best hact ih =>
    intro hh
    simp only [best] at *
    rw [matchLoop_eq_inactive h hact]
    exact ih (heapPop_isHeap hok hh)
  | case2 incoming opp seq acc h best hact hgate =>
    intro hh
    simp only [best] at *
    rw [matchLoop_eq_gate h (bool_eq_true_of_ne_false hact) hgate]
    exact hh
  | case3 incoming opp seq acc h best hact hgate qty trade incoming' best' hfill opp1 ih =>
    intro hh
    simp only [best, qty, trade, incoming', best', opp1] at *
    rw [matchLoop_eq_fill h (bool_eq_true_of_ne_false hact) hgate hfill]
    exact ih (heapPop_isHeap hok (isHeap_set_keyed hok rfl rfl hh))
  | case4 incoming opp seq acc h best hact hgate qty trade incoming' best' hfill opp1 ih =>
    intro hh
    simp only [best, qty, trade, incoming', best', opp1] at *
    rw [matchLoop_eq_partfill h (bool_eq_true_of_ne_false hact) hgate
      (by revert hfill; cases hf : ({ opp.getD 0 default with
          Filled := (opp.getD 0 default).Filled
            + (min incoming.Remaining (opp.getD 0 default).Remaining) }).IsFilled
        <;> simp)]
    exact ih (isHeap_set_keyed hok rfl rfl hh)
  | case5 incoming opp seq acc h =>
    intro hh
    rw [matchLoop_eq_stop h]
    exact hh

theorem bool_eq_false_of_ne_true {b : Bool} (h : ¬b = true) : b = false := by
  cases b
  · rfl
  · exact absurd rfl h

/-- L2: every order left on the opposite side descends from a pre-match
order via fill/status mutation only. -/
theorem matchLoop_mut {cmp : Order → Order → Bool} {ptf : ℚ → ℚ → Bool}
    {mk : Nat → Order → Order → Int → Trade} :
    ∀ incoming opp seq acc,
      ∀ o' ∈ (matchLoop cmp ptf mk incoming opp seq acc).opp,
        ∃ o ∈ opp, MutOf o' o := by
  intro incoming opp seq acc
  induction incoming, opp, seq, acc using matchLoop.induct cmp ptf mk with
  | case1 incoming opp seq acc h best hact ih =>
    simp only [best] at *
    rw [matchLoop_eq_inactive h hact]
    intro o' ho'
    obtain ⟨o, ho, hm⟩ := ih o' ho'
    exact ⟨o, mem_heapPop (List.length_pos.mp h.1) ho, hm⟩
  | case2 incoming opp seq acc h best hact hgate =>
    simp only [best] at *
    rw [matchLoop_eq_gate h (bool_eq_true_of_ne_false hact) hgate]
    intro o' ho'
    exact ⟨o', ho', MutOf.refl o'⟩
  | case3 incoming opp seq acc h best hact hgate qty trade incoming' best' hfill opp1 ih =>
    simp only [best, qty, trade, incoming', best', opp1] at *
    rw [matchLoop_eq_fill h (bool_eq_true_of_ne_false hact) hgate hfill]
    intro o' ho'
    obtain ⟨o, ho, hm⟩ := ih o' ho'
    have hne : (opp.set 0 { opp.getD 0 default with
        Filled := (opp.getD 0 default).Filled
          + (min incoming.Remaining (opp.getD 0 default).Remaining),
        Status := StatusFilled }) ≠ [] := by
      intro hemp
      have h0 := congrArg List.length hemp
      rw [List.length_set] at h0
      simp only [List.length_nil] at h0
      omega
    have ho2 := mem_heapPop hne ho
    rcases List.mem_or_eq_of_mem_set ho2 with hin | rfl
    · exact ⟨o, hin, hm⟩
    · exact ⟨opp.getD 0 default, getD_mem_of_lt opp 0 h.1,
        hm.comp (mutOf_fill _ _)⟩
  | case4 incoming opp seq acc h best hact hgate qty trade incoming' best' hfill opp1 ih =>
    simp only [best, qty, trade, incoming', best', opp1] at *
    rw [matchLoop_eq_partfill h (bool_eq_true_of_ne_false hact) hgate
      (bool_eq_false_of_ne_true hfill)]
    intro o' ho'
    obtain ⟨o, ho, hm⟩ := ih o' ho'
    rcases List.mem_or_eq_of_mem_set ho with hin | rfl
    · exact ⟨o, hin, hm⟩
    · exact ⟨opp.getD 0 default, getD_mem_of_lt opp 0 h.1,
        hm.comp (mutOf_partfill _ (bool_eq_true_of_ne_false hact) _)⟩
  | case5 incoming opp seq acc h =>
    rw [matchLoop_eq_stop h]
    intro o' ho'
    exact ⟨o', ho', MutOf.refl o'⟩

/-- L3: every trade the loop emits beyond `acc` was built by `mk` against an
order that was active at match time and descends from the pre-match heap. -/
theorem matchLoop_trades {cmp : Order → Order → Bool} {ptf : ℚ → ℚ → Bool}
    {mk : Nat → Order → Order → Int → Trade} :
    ∀ incoming opp seq acc,
      ∀ t ∈ (matchLoop cmp ptf mk incoming opp seq acc).trades,
        t ∈ acc ∨ ∃ s' inc' b q, t = mk s' inc' b q ∧ b.IsActive = true ∧
          ∃ o ∈ opp, MutOf b o := by
  intro incoming opp seq acc
  induction incoming, opp, seq, acc using matchLoop.induct cmp ptf mk with
  | case1 incoming opp seq acc h best hact ih =>
    simp only [best] at *
    rw [matchLoop_eq_inactive h hact]
    intro t ht
    rcases ih t ht with hacc | ⟨s', inc', b, q, ht', hb, o, ho, hm⟩
    · exact Or.inl hacc
    · exact Or.inr ⟨s', inc', b, q, ht', hb,
        o, mem_heapPop (List.length_pos.mp h.1) ho, hm⟩
  | case2 incoming opp seq acc h best hact hgate =>
    simp only [best] at *
    rw [matchLoop_eq_gate h (bool_eq_true_of_ne_false hact) hgate]
    intro t ht
    exact Or.inl ht
  | case3 incoming opp seq acc h best hact hgate qty trade incoming' best' hfill opp1 ih =>
    simp only [best, qty, trade, incoming', best', opp1] at *
    rw [matchLoop_eq_fill h (bool_eq_true_of_ne_false hact) hgate hfill]
    intro t ht
    rcases ih t ht with hacc | ⟨s', inc', b, q, ht', hb, o, ho, hm⟩
    · rcases List.mem_append.mp hacc with hacc' | hnew
      · exact Or.inl hacc'
      · refine Or.inr ⟨seq + 1, incoming, opp.getD 0 default,
          min incoming.Remaining (opp.getD 0 default).Remaining,
          List.mem_singleton.mp hnew, bool_eq_true_of_ne_false hact,
          opp.getD 0 default, getD_mem_of_lt opp 0 h.1, MutOf.refl _⟩
    · have hne : (opp.set 0 { opp.getD 0 default with
          Filled := (opp.getD 0 default).Filled
            + (min incoming.Remaining (opp.getD 0 default).Remaining),
          Status := StatusFilled }) ≠ [] := by
        intro hemp
        have h0 := congrArg List.length hemp
        rw [List.length_set] at h0
        simp only [List.length_nil] at h0
        omega
      have ho2 := mem_heapPop hne ho
      rcases List.mem_or_eq_of_mem_set ho2 with hin | rfl
      · exact Or.inr ⟨s', inc', b, q, ht', hb, o, hin, hm⟩
      · exact Or.inr ⟨s', inc', b, q, ht', hb, opp.getD 0 default,
          getD_mem_of_lt opp 0 h.1, hm.comp (mutOf_fill _ _)⟩
  | case4 incoming opp seq acc h best hact hgate qty trade incoming' best' hfill opp1 ih =>
    simp only [best, qty, trade, incoming', best', opp1] at *
    rw [matchLoop_eq_partfill h (bool_eq_true_of_ne_false hact) hgate
      (bool_eq_false_of_ne_true hfill)]
    intro t ht
    rcases ih t ht with hacc | ⟨s', inc', b, q, ht', hb, o, ho, hm⟩
    · rcases List.mem_append.mp hacc with hacc' | hnew
      · exact Or.inl hacc'
      · refine Or.inr ⟨seq + 1, incoming, opp.getD 0 default,
          min incoming.Remaining (opp.getD 0 default).Remaining,
          List.mem_singleton.mp hnew, bool_eq_true_of_ne_false hact,
          opp.getD 0 default, getD_mem_of_lt opp 0 h.1, MutOf.refl _⟩
    · rcases List.mem_or_eq_of_mem_set ho with hin | rfl
      · exact Or.inr ⟨s', inc', b, q, ht', hb, o, hin, hm⟩
      · exact Or.inr ⟨s', inc', b, q, ht', hb, opp.getD 0 default,
          getD_mem_of_lt opp 0 h.1,
          hm.comp (mutOf_partfill _ (bool_eq_true_of_ne_false hact) _)⟩
  | case5 incoming opp seq acc h =>
    rw [matchLoop_eq_stop h]
    intro t ht
    exact Or.inl ht

/-- L4: the loop touches only the incoming order's `Filled` field. -/
theorem matchLoop_inc {cmp : Order → Order → Bool} {ptf : ℚ → ℚ → Bool}
    {mk : Nat → Order → Order → Int → Trade} :
    ∀ incoming opp seq acc,
      (matchLoop cmp ptf mk incoming opp seq acc).inc.ID = incoming.ID ∧
      (matchLoop cmp ptf mk incoming opp seq acc).inc.Symbol = incoming.Symbol ∧
      (matchLoop cmp ptf mk incoming opp seq acc).inc.Side = incoming.Side ∧
      (matchLoop cmp ptf mk incoming opp seq acc).inc.Typ = incoming.Typ ∧
      (matchLoop cmp ptf mk incoming opp seq acc).inc.Status = incoming.Status ∧
      (matchLoop cmp ptf mk incoming opp seq acc).inc.Price = incoming.Price ∧
      (matchLoop cmp ptf mk incoming opp seq acc).inc.Quantity = incoming.Quantity ∧
      (matchLoop cmp ptf mk incoming opp seq acc).inc.Timestamp = incoming.Timestamp := by
  intro incoming opp seq acc
  induction incoming, opp, seq, acc using matchLoop.induct cmp ptf mk with
  | case1 incoming opp seq acc h best hact ih =>
    simp only [best] at *
    rw [matchLoop_eq_inactive h hact]
    exact ih
  | case2 incoming opp seq acc h best hact hgate =>
    simp only [best] at *
    rw [matchLoop_eq_gate h (bool_eq_true_of_ne_false hact) hgate]
    exact ⟨rfl, rfl, rfl, rfl, rfl, rfl, rfl, rfl⟩
  | case3 incoming opp seq acc h best hact hgate qty trade incoming' best' hfill opp1 ih =>
    simp only [best, qty, trade, incoming', best', opp1] at *
    rw [matchLoop_eq_fill h (bool_eq_true_of_ne_false hact) hgate hfill]
    exact ih
  | case4 incoming opp seq acc h best hact hgate qty trade incoming' best' hfill opp1 ih =>
    simp only [best, qty, trade, incoming', best', opp1] at *
    rw [matchLoop_eq_partfill h (bool_eq_true_of_ne_false hact) hgate
      (bool_eq_false_of_ne_true hfill)]
    exact ih
  | case5 incoming opp seq acc h =>
    rw [matchLoop_eq_stop h]
    exact ⟨rfl, rfl, rfl, rfl, rfl, rfl, rfl, rfl⟩

/-- L5: if the incoming order still has remaining quantity when the loop
stops, then the opposite side is exhausted, or its top is an active order
behind the incoming LIMIT order's price gate. -/
theorem matchLoop_exit {cmp : Order → Order → Bool} {ptf : ℚ → ℚ → Bool}
    {mk : Nat → Order → Order → Int → Trade} :
    ∀ incoming opp seq acc,
      0 < (matchLoop cmp ptf mk incoming opp seq acc).inc.Remaining →
        (matchLoop cmp ptf mk incoming opp seq acc).opp = [] ∨
        (((matchLoop cmp ptf mk incoming opp seq acc).opp.getD 0 default).IsActive = true ∧
          incoming.Typ = Limit ∧
          ptf incoming.Price
            ((matchLoop cmp ptf mk incoming opp seq acc).opp.getD 0 default).Price = true) := by
  intro incoming opp seq acc
  induction incoming, opp, seq, acc using matchLoop.induct cmp ptf mk with
  | case1 incoming opp seq acc h best hact ih =>
    simp only [best] at *
    rw [matchLoop_eq_inactive h hact]
    exact ih
  | case2 incoming opp seq acc h best hact hgate =>
    simp only [best] at *
    rw [matchLoop_eq_gate h (bool_eq_true_of_ne_false hact) hgate]
    intro hrem
    exact Or.inr ⟨bool_eq_true_of_ne_false hact, hgate.1, hgate.2⟩
  | case3 incoming opp seq acc h best hact hgate qty trade incoming' best' hfill opp1 ih =>
    simp only [best, qty, trade, incoming', best', opp1] at *
    rw [matchLoop_eq_fill h (bool_eq_true_of_ne_false hact) hgate hfill]
    intro hrem
    rcases ih hrem with hemp | ⟨ha, hty, hp⟩
    · exact Or.inl hemp
    · exact Or.inr ⟨ha, hty, hp⟩
  | case4 incoming opp seq acc h best hact hgate qty trade incoming' best' hfill opp1 ih =>
    simp only [best, qty, trade, incoming', best', opp1] at *
    rw [matchLoop_eq_partfill h (bool_eq_true_of_ne_false hact) hgate
      (bool_eq_false_of_ne_true hfill)]
    intro hrem
    rcases ih hrem with hemp | ⟨ha, hty, hp⟩
    · exact Or.inl hemp
    · exact Or.inr ⟨ha, hty, hp⟩
  | case5 incoming opp seq acc h =>
    rw [matchLoop_eq_stop h]
    intro hrem
    push_neg at h
    left
    have : opp.length = 0 := by
      by_contra hlen
      exact absurd (h (by omega)) (by simp only [Order.Remaining] at hrem ⊢; omega)
    exact List.length_eq_zero.mp this

/-! ### Characterisation of the cancel scan -/

theorem cancelScan_none_iff (orderID : Nat) (l : List Order) :
    cancelScan orderID l = none ↔
      ∀ o ∈ l, ¬(o.ID = orderID ∧ o.IsActive = true) := by
  induction l with
  | nil => simp [cancelScan]
  | cons o rest ih =>
    unfold cancelScan
    by_cases hc : o.ID = orderID ∧ o.IsActive = true
    · simp [hc]
    · simp only [hc, if_false, Option.map_eq_none', ih, List.mem_cons]
      constructor
      · intro hall o' ho'
        rcases ho' with rfl | ho'
        · exact hc
        · exact hall o' ho'
      · intro hall o' ho'
        exact hall o' (Or.inr ho')

theorem cancelScan_some_spec (orderID : Nat) :
    ∀ (l l' : List Order), cancelScan orderID l = some l' →
      ∃ i, i < l.length ∧ (l.getD i default).ID = orderID ∧
        (l.getD i default).IsActive = true ∧
        l' = l.set i { l.getD i default with Status := StatusCancelled } ∧
        ∀ m, m < i →
          ¬((l.getD m default).ID = orderID ∧ (l.getD m default).IsActive = true) := by
  intro l
  induction l with
  | nil => intro l' h; simp [cancelScan] at h
  | cons o rest ih =>
    intro l' h
    unfold cancelScan at h
    by_cases hc : o.ID = orderID ∧ o.IsActive = true
    · rw [if_pos hc] at h
      injection h with h
      refine ⟨0, by simp, by simpa using hc.1, by simpa using hc.2, ?_, by omega⟩
      rw [← h]
      simp [List.set]
    · rw [if_neg hc] at h
      cases hrec : cancelScan orderID rest with
      | none => rw [hrec] at h; simp at h
      | some rest' =>
        rw [hrec] at h
        simp only [Option.map_some', Option.some.injEq] at h
        obtain ⟨i, hi, h1, h2, h3, h4⟩ := ih rest' hrec
        refine ⟨i + 1, by simp; omega, by simpa using h1, by simpa using h2, ?_, ?_⟩
        · rw [← h, h3]
          simp [List.set]
        · intro m hm
          cases m with
          | zero => simpa using hc
          | succ m' => simpa using h4 m' (by omega)

/-! ### Behaviour of `finalizeOrder` -/

theorem finalizeOrder_filled (cmp : Order → Order → Bool) (o : Order)
    (book : List Order) (h : o.IsFilled = true) :
    finalizeOrder cmp o book = ({ o with Status := StatusFilled }, book) := by
  unfold finalizeOrder
  rw [if_pos h]

theorem finalizeOrder_ioc (cmp : Order → Order → Bool) (o : Order)
    (book : List Order) (h : o.IsFilled = false) (ht : o.Typ = IOC) :
    finalizeOrder cmp o book = ({ o with Status := StatusCancelled }, book) := by
  unfold finalizeOrder
  rw [if_neg (by rw [h]; simp), if_pos ht]

theorem finalizeOrder_market (cmp : Order → Order → Bool) (o : Order)
    (book : List Order) (h : o.IsFilled = false) (ht : o.Typ = Market)
    (hr : 0 < o.Remaining) :
    finalizeOrder cmp o book = ({ o with Status := StatusCancelled }, book) := by
  unfold finalizeOrder
  rw [if_neg (by rw [h]; simp), if_neg (by rw [ht]; decide), if_pos ⟨ht, hr⟩]

theorem finalizeOrder_limit (cmp : Order → Order → Bool) (o : Order)
    (book : List Order) (h : o.IsFilled = false) (ht : o.Typ = Limit)
    (hr : 0 < o.Remaining) :
    finalizeOrder cmp o book =
      (if 0 < o.Filled then { o with Status := StatusPartial } else o,
       heapPush cmp book
         (if 0 < o.Filled then { o with Status := StatusPartial } else o)) := by
  unfold finalizeOrder
  rw [if_neg (by rw [h]; simp), if_neg (by rw [ht]; decide),
    if_neg (by rw [ht]; simp; intro hm; exact absurd hm (by decide)),
    if_pos ⟨ht, hr⟩]

theorem finalizeOrder_other (cmp : Order → Order → Bool) (o : Order)
    (book : List Order) (h : o.IsFilled = false) (h1 : o.Typ ≠ Limit)
    (h2 : o.Typ ≠ Market) (h3 : o.Typ ≠ IOC) :
    finalizeOrder cmp o book = (o, book) := by
  unfold finalizeOrder
  rw [if_neg (by rw [h]; simp), if_neg h3,
    if_neg (by intro hm; exact h2 hm.1), if_neg (by intro hm; exact h1 hm.1)]

theorem finalizeOrder_isHeap {cmp : Order → Order → Bool} (hok : LessOK cmp)
    {o : Order} {book : List Order} (h : IsHeap cmp book) :
    IsHeap cmp (finalizeOrder cmp o book).2 := by
  unfold finalizeOrder
  repeat' split
  all_goals first | exact h | exact heapPush_isHeap hok h _

theorem finalizeOrder_mem {cmp : Order → Order → Bool} {o : Order}
    {book : List Order} {x : Order} (hx : x ∈ (finalizeOrder cmp o book).2) :
    x ∈ book ∨ (x = (finalizeOrder cmp o book).1 ∧ o.IsFilled = false ∧
      o.Typ = Limit ∧ 0 < o.Remaining) := by
  revert hx
  unfold finalizeOrder
  split
  · exact fun hx => Or.inl hx
  · split
    · exact fun hx => Or.inl hx
    · split
      · exact fun hx => Or.inl hx
      · split
        · next hcond =>
          next hfil _ _ =>
            intro hx
            rcases mem_heapPush hx with hin | rfl
            · exact Or.inl hin
            · exact Or.inr ⟨rfl, bool_eq_false_of_ne_true hfil, hcond.1, hcond.2⟩
        · exact fun hx => Or.inl hx

theorem finalizeOrder_fst_fields {cmp : Order → Order → Bool} {o : Order}
    {book : List Order} :
    (finalizeOrder cmp o book).1.ID = o.ID ∧
    (finalizeOrder cmp o book).1.Symbol = o.Symbol ∧
    (finalizeOrder cmp o book).1.Side = o.Side ∧
    (finalizeOrder cmp o book).1.Typ = o.Typ ∧
    (finalizeOrder cmp o book).1.Price = o.Price ∧
    (finalizeOrder cmp o book).1.Quantity = o.Quantity ∧
    (finalizeOrder cmp o book).1.Filled = o.Filled ∧
    (finalizeOrder cmp o book).1.Timestamp = o.Timestamp := by
  unfold finalizeOrder
  repeat' split
  all_goals exact ⟨rfl, rfl, rfl, rfl, rfl, rfl, rfl, rfl⟩

/-! ### Top-of-heap dominance -/

theorem mem_iff_getD {l : List Order} {a : Order} :
    a ∈ l ↔ ∃ i, i < l.length ∧ l.getD i default = a := by
  rw [List.mem_iff_getElem]
  constructor
  · rintro ⟨i, hi, rfl⟩
    exact ⟨i, hi, by rw [List.getD_eq_getElem?_getD, List.getElem?_eq_getElem hi]; rfl⟩
  · rintro ⟨i, hi, rfl⟩
    exact ⟨i, hi, by rw [List.getD_eq_getElem?_getD, List.getElem?_eq_getElem hi]; rfl⟩

/-- In an ask-side heap, the top has a (price, time) key no worse than any
element: strictly lower price, or equal price and no later timestamp. -/
theorem askHeap_top_min {l : List Order} (hh : IsHeap askLess l) {o : Order}
    (ho : o ∈ l) :
    (l.getD 0 default).Price < o.Price ∨
      (o.Price = (l.getD 0 default).Price ∧
       (l.getD 0 default).Timestamp ≤ o.Timestamp) := by
  obtain ⟨i, hi, rfl⟩ := mem_iff_getD.mp ho
  have := isHeapN_root_min askLess_ok hh i hi
  rwa [askLess_false_iff] at this

/-- In a bid-side heap, the top has a (price, time) key no worse than any
element: strictly higher price, or equal price and no later timestamp. -/
theorem bidHeap_top_max {l : List Order} (hh : IsHeap bidLess l) {o : Order}
    (ho : o ∈ l) :
    o.Price < (l.getD 0 default).Price ∨
      (o.Price = (l.getD 0 default).Price ∧
       (l.getD 0 default).Timestamp ≤ o.Timestamp) := by
  obtain ⟨i, hi, rfl⟩ := mem_iff_getD.mp ho
  have := isHeapN_root_min bidLess_ok hh i hi
  rwa [bidLess_false_iff] at this

/-! ## Reachable book states and the book invariant -/

/-- The shape of an order as the gateway hands it to a book: freshly built
(status OPEN, nothing filled), validated (positive quantity, recognised side
and type, positive limit price). -/
def ValidIncoming (o : Order) : Prop :=
  o.Status = StatusOpen ∧ o.Filled = 0 ∧ 0 < o.Quantity ∧
  (o.Side = Buy ∨ o.Side = Sell) ∧
  (o.Typ = Limit ∨ o.Typ = Market ∨ o.Typ = IOC) ∧
  (o.Typ = Limit → 0 < o.Price)

instance (o : Order) : Decidable (ValidIncoming o) := by
  unfold ValidIncoming; infer_instance

/-- Book states reachable from an empty book by gateway-validated submits and
cancels. -/
inductive Reach : OrderBook → Prop
  | init (symbol : String) : Reach (NewOrderBook symbol)
  | submit {ob : OrderBook} (o : Order) (seq : Nat) : Reach ob →
      ValidIncoming o → Reach (ob.Submit o seq).book
  | cancel {ob : OrderBook} (orderID : Nat) : Reach ob →
      Reach (ob.Cancel orderID).2

/-- No crossed book among active orders. -/
def ActiveCross (ob : OrderBook) : Prop :=
  ∀ b ∈ ob.bids, ∀ a ∈ ob.asks,
    b.IsActive = true → a.IsActive = true → b.Price < a.Price

/-- The inductive invariant: both sides heap-shaped, actives not crossed. -/
def BookInv (ob : OrderBook) : Prop :=
  IsHeap bidLess ob.bids ∧ IsHeap askLess ob.asks ∧ ActiveCross ob

theorem isActive_cancelled (o : Order) :
    ({ o with Status := StatusCancelled }).IsActive = false := by
  simp [Order.IsActive, StatusCancelled, StatusOpen, StatusPartial]

/-- A BUY submit preserves the book invariant. -/
theorem matchBuy_bookInv {ob : OrderBook} {o : Order} {seq : Nat}
    (hinv : BookInv ob) : BookInv ((ob.matchBuy o seq).book) := by
  obtain ⟨hb, ha, hx⟩ := hinv
  unfold OrderBook.matchBuy
  simp only
  refine ⟨finalizeOrder_isHeap bidLess_ok hb,
    matchLoop_isHeap askLess_ok o ob.asks seq [] ha, ?_⟩
  intro b' hb' a' ha' hbact haact
  obtain ⟨a0, ha0, hmut⟩ := matchLoop_mut o ob.asks seq [] a' ha'
  have haprice : a'.Price = a0.Price := hmut.2.2.2.2.1
  have ha0act : a0.IsActive = true := hmut.2.2.2.2.2.2.2 haact
  rcases finalizeOrder_mem hb' with hold | ⟨hbeq, hnf, hlim, hrem⟩
  · rw [haprice]
    exact hx b' hold a0 ha0 hbact ha0act
  · have hinc := @matchLoop_inc askLess (fun ip ap => decide (ip < ap))
      (fun s inc best q =>
        newTrade s ob.symbol inc.ID best.ID best.Price q inc.Timestamp)
      o ob.asks seq []
    have hrem' : 0 < (matchLoop askLess (fun ip ap => decide (ip < ap))
        (fun s inc best q =>
          newTrade s ob.symbol inc.ID best.ID best.Price q inc.Timestamp)
        o ob.asks seq []).inc.Remaining := hrem
    rcases matchLoop_exit o ob.asks seq [] hrem' with hemp | ⟨htopact, htyp, hgate⟩
    · rw [hemp] at ha'
      exact absurd ha' (List.not_mem_nil a')
    · have hheap' := @matchLoop_isHeap askLess (fun ip ap => decide (ip < ap))
        (fun s inc best q =>
          newTrade s ob.symbol inc.ID best.ID best.Price q inc.Timestamp)
        askLess_ok o ob.asks seq [] ha
      have htop := askHeap_top_min hheap' ha'
      have hgate' : o.Price < ((matchLoop askLess (fun ip ap => decide (ip < ap))
          (fun s inc best q =>
            newTrade s ob.symbol inc.ID best.ID best.Price q inc.Timestamp)
          o ob.asks seq []).opp.getD 0 default).Price := by
        exact_mod_cast of_decide_eq_true hgate
      have hbp : b'.Price = o.Price := by
        rw [hbeq]
        rw [finalizeOrder_fst_fields.2.2.2.2.1, hinc.2.2.2.2.2.1]
      rcases htop with hlt | ⟨heq, _⟩
      · rw [hbp]; linarith
      · rw [hbp, heq]; linarith

/-- A SELL submit preserves the book invariant. -/
theorem matchSell_bookInv {ob : OrderBook} {o : Order} {seq : Nat}
    (hinv : BookInv ob) : BookInv ((ob.matchSell o seq).book) := by
  obtain ⟨hb, ha, hx⟩ := hinv
  unfold OrderBook.matchSell
  simp only
  refine ⟨matchLoop_isHeap bidLess_ok o ob.bids seq [] hb,
    finalizeOrder_isHeap askLess_ok ha, ?_⟩
  intro b' hb' a' ha' hbact haact
  obtain ⟨b0, hb0, hmut⟩ := matchLoop_mut o ob.bids seq [] b' hb'
  have hbprice : b'.Price = b0.Price := hmut.2.2.2.2.1
  have hb0act : b0.IsActive = true := hmut.2.2.2.2.2.2.2 hbact
  rcases finalizeOrder_mem ha' with hold | ⟨haeq, hnf, hlim, hrem⟩
  · rw [hbprice]
    exact hx b0 hb0 a' hold hb0act haact
  · have hinc := @matchLoop_inc bidLess (fun ip bp => decide (ip > bp))
      (fun s inc best q =>
        newTrade s ob.symbol best.ID inc.ID best.Price q inc.Timestamp)
      o ob.bids seq []
    have hrem' : 0 < (matchLoop bidLess (fun ip bp => decide (ip > bp))
        (fun s inc best q =>
          newTrade s ob.symbol best.ID inc.ID best.Price q inc.Timestamp)
        o ob.bids seq []).inc.Remaining := hrem
    rcases matchLoop_exit o ob.bids seq [] hrem' with hemp | ⟨htopact, htyp, hgate⟩
    · rw [hemp] at hb'
      exact absurd hb' (List.not_mem_nil b')
    · have hheap' := @matchLoop_isHeap bidLess (fun ip bp => decide (ip > bp))
        (fun s inc best q =>
          newTrade s ob.symbol best.ID inc.ID best.Price q inc.Timestamp)
        bidLess_ok o ob.bids seq [] hb
      have htop := bidHeap_top_max hheap' hb'
      have hgate' : ((matchLoop bidLess (fun ip bp => decide (ip > bp))
          (fun s inc best q =>
            newTrade s ob.symbol best.ID inc.ID best.Price q inc.Timestamp)
          o ob.bids seq []).opp.getD 0 default).Price < o.Price := by
        exact_mod_cast of_decide_eq_true hgate
      have hap : a'.Price = o.Price := by
        rw [haeq]
        rw [finalizeOrder_fst_fields.2.2.2.2.1, hinc.2.2.2.2.2.1]
      rcases htop with hlt | ⟨heq, _⟩
      · rw [hap]; linarith
      · rw [hap, heq]; linarith

/-- Every reachable book state satisfies the invariant: both sides are
heap-shaped and no active bid price reaches any active ask price. -/
theorem reach_bookInv {ob : OrderBook} (h : Reach ob) : BookInv ob := by
  induction h with
  | init symbol =>
    refine ⟨?_, ?_, ?_⟩
    · intro j hj hjpos; simp [NewOrderBook] at hj
    · intro j hj hjpos; simp [NewOrderBook] at hj
    · intro b hbmem; simp [NewOrderBook] at hbmem
  | submit o seq hreach hvalid ih =>
    unfold OrderBook.Submit OrderBook.matchO
    rcases hvalid.2.2.2.1 with hside | hside
    · rw [if_pos hside]
      exact matchBuy_bookInv ih
    · rw [if_neg (by rw [hside]; decide), if_pos hside]
      exact matchSell_bookInv ih
  | cancel orderID hreach ih =>
    obtain ⟨hb, ha, hx⟩ := ih
    unfold OrderBook.Cancel
    rename_i ob'
    cases hbs : cancelScan orderID ob'.bids with
    | some bids' =>
      obtain ⟨i, hi, hid, hact, rfl, hfirst⟩ := cancelScan_some_spec orderID _ _ hbs
      refine ⟨?_, ha, ?_⟩
      · exact isHeap_set_keyed bidLess_ok rfl rfl hb
      · intro b' hb' a' ha' hbact haact
        rcases List.mem_or_eq_of_mem_set hb' with hin | rfl
        · exact hx b' hin a' ha' hbact haact
        · rw [isActive_cancelled] at hbact
          exact absurd hbact (by simp)
    | none =>
      cases has : cancelScan orderID ob'.asks with
      | some asks' =>
        obtain ⟨i, hi, hid, hact, rfl, hfirst⟩ := cancelScan_some_spec orderID _ _ has
        refine ⟨hb, ?_, ?_⟩
        · exact isHeap_set_keyed askLess_ok rfl rfl ha
        · intro b' hb' a' ha' hbact haact
          rcases List.mem_or_eq_of_mem_set ha' with hin | rfl
          · exact hx b' hb' a' hin hbact haact
          · rw [isActive_cancelled] at haact
            exact absurd haact (by simp)
      | none =>
        exact ⟨hb, ha, hx⟩

/-! ## Support for the gateway-level claims -/

/-- Writing back the book that lookup found leaves the map unchanged. -/
theorem updateBooks_lookup_self :
    ∀ (books : List (String × OrderBook)) (s : String) (b : OrderBook),
      lookupBook books s = some b → updateBooks books s b = books := by
  intro books
  induction books with
  | nil => intro s b h; simp [lookupBook] at h
  | cons p rest ih =>
    intro s b h
    unfold lookupBook at h
    unfold updateBooks
    by_cases hp : p.1 = s
    · rw [if_pos hp] at h
      injection h with h
      rw [if_pos hp, ← h]
    · rw [if_neg hp] at h
      rw [if_neg hp, ih s b h]

/-- A fully-filled order submitted to a book is a no-op: no trades, book
unchanged (`matchLoop` never starts, `finalizeOrder` does not rest it). -/
theorem book_submit_filled_noop (ob : OrderBook) (o : Order) (seq : Nat)
    (hfil : o.IsFilled = true) :
    ∃ o', ob.Submit o seq = ⟨[], o', ob, seq⟩ := by
  have hrem : ¬(0 < o.Remaining) := by
    simp only [Order.IsFilled, decide_eq_true_eq] at hfil
    simp only [Order.Remaining]
    omega
  unfold OrderBook.Submit OrderBook.matchO
  by_cases hb : o.Side = Buy
  · rw [if_pos hb]
    refine ⟨{ o with Status := StatusFilled }, ?_⟩
    unfold OrderBook.matchBuy
    rw [matchLoop_eq_stop (by intro hg; exact hrem hg.2)]
    simp only
    rw [finalizeOrder_filled _ _ _ hfil]
  · rw [if_neg hb]
    by_cases hs : o.Side = Sell
    · rw [if_pos hs]
      refine ⟨{ o with Status := StatusFilled }, ?_⟩
      unfold OrderBook.matchSell
      rw [matchLoop_eq_stop (by intro hg; exact hrem hg.2)]
      simp only
      rw [finalizeOrder_filled _ _ _ hfil]
    · rw [if_neg hs]
      exact ⟨o, rfl⟩

theorem option_map_append_nil (log : Option (List Trade)) :
    log.map (· ++ ([] : List Trade)) = log := by
  cases log <;> simp

/-- Total extractor for `GoResult` values (used to chain scenario states). -/
def goOk {α : Type} [Inhabited α] : GoResult α → α
  | .panicked => default
  | .ok v => v

/-- C6: Submitting a null order does NOT return a malformed-field rejection:
`validateOrder` classifies nil as the `"order"` (malformed) failure, but
`Gateway.Submit` then executes `o.Status = StatusRejected` on the nil
pointer, so the call panics instead of returning the error.  The claim's
"does not crash" is wrong on the code; this theorem evaluates the code at
the failing input. -/
theorem null_submit_panics :
    validateOrder none = some ⟨"order", "ordre nil"⟩ ∧
    ∀ (gw : Gateway) (seq : Nat), gw.Submit none seq = GoResult.panicked :=
  ⟨rfl, fun _ _ => rfl⟩

def c8Gw : Gateway := NewGateway ["AAPL"] none

def c8Bad : Order := ⟨7, "GOOG", Buy, Limit, StatusOpen, 10, 0, 0, 5⟩

/-- C8 counterexample: an order whose symbol is NOT in the registered set and
whose quantity is also invalid is rejected as `quantity`, not as
`unknown_symbol`: the registered-set check only happens in `Gateway.Submit`
after every `validateOrder` rule has passed. -/
theorem c8_counterexample :
    lookupBook c8Gw.books c8Bad.Symbol = none ∧ c8Bad.Quantity ≤ 0 ∧
    c8Gw.Submit (some c8Bad) 0 =
      GoResult.ok ([], some (SubmitErr.validation
        ⟨"quantity", "quantite doit etre > 0"⟩),
        { c8Bad with Status := StatusRejected }, c8Gw, 0) := by
  refine ⟨by decide, by decide, by decide⟩

/-- C8 (amended): gateway validation applies, in order: order non-null,
symbol non-empty, side valid, type valid, quantity > 0, LIMIT price > 0,
LIMIT price ≤ 1,000,000; the registered-symbol check happens only
afterwards, during routing.  Hence an order with non-positive quantity is
rejected with the `quantity` reason regardless of whether its symbol is
registered. -/
theorem quantity_rejected_before_symbol_routing (gw : Gateway) (o : Order)
    (seq : Nat) (hsym : ¬o.Symbol = "") (hside : o.Side = Buy ∨ o.Side = Sell)
    (htyp : o.Typ = Limit ∨ o.Typ = Market ∨ o.Typ = IOC)
    (hqty : o.Quantity ≤ 0) :
    gw.Submit (some o) seq =
      GoResult.ok ([], some (SubmitErr.validation
        ⟨"quantity", "quantite doit etre > 0"⟩),
        { o with Status := StatusRejected }, gw, seq) := by
  have h2 : ¬(o.Side ≠ Buy ∧ o.Side ≠ Sell) := by
    rintro ⟨ha, hb⟩
    rcases hside with h | h
    · exact ha h
    · exact hb h
  have h3 : ¬(o.Typ ≠ Limit ∧ o.Typ ≠ Market ∧ o.Typ ≠ IOC) := by
    rintro ⟨ha, hb, hc⟩
    rcases htyp with h | h | h
    · exact ha h
    · exact hb h
    · exact hc h
  have hval : validateOrder (some o) =
      some ⟨"quantity", "quantite doit etre > 0"⟩ := by
    simp only [validateOrder]
    rw [if_neg hsym, if_neg h2, if_neg h3, if_pos hqty]
  simp only [Gateway.Submit, hval]

theorem quantity_rejected_before_symbol_routing_witness :
    (¬c8Bad.Symbol = "") ∧ c8Bad.Quantity ≤ 0 ∧
    c8Gw.Submit (some c8Bad) 0 =
      GoResult.ok ([], some (SubmitErr.validation
        ⟨"quantity", "quantite doit etre > 0"⟩),
        { c8Bad with Status := StatusRejected }, c8Gw, 0) :=
  ⟨by decide, by decide,
    quantity_rejected_before_symbol_routing c8Gw c8Bad 0 (by decide)
      (by decide) (by decide) (by decide)⟩

/-! ### C7 scenario: resubmitting a terminal order -/

def c7Buy : Order := ⟨1, "AAPL", Buy, Limit, StatusOpen, 100, 10, 0, 1⟩

def c7Sell : Order := ⟨2, "AAPL", Sell, Limit, StatusOpen, 100, 10, 0, 2⟩

def c7Gw0 : Gateway := NewGateway ["AAPL"] (some [])

def c7Gw1 : Gateway := (goOk (c7Gw0.Submit (some c7Buy) 0)).2.2.2.1

def c7Gw2 : Gateway := (c7Gw1.Cancel "AAPL" 1).2

def c7Gw3 : Gateway := (goOk (c7Gw2.Submit (some c7Sell) 0)).2.2.2.1

def c7CancelledBuy : Order := { c7Buy with Status := StatusCancelled }

/-- C7 counterexample: the gateway performs no terminal-status check.  After
submit / cancel / opposite-side submit, resubmitting the CANCELLED order
object is not rejected (error `none`), produces a trade, grows the trade
log, and fills the supposedly terminal order. -/
theorem c7_counterexample :
    c7CancelledBuy.Status = StatusCancelled ∧
    c7Gw3.Submit (some c7CancelledBuy) 0 =
      GoResult.ok ([⟨1, "AAPL", 1, 2, 100, 10, 1⟩], none,
        { c7Buy with Status := StatusFilled, Filled := 10 },
        ⟨[("AAPL", ⟨"AAPL", [], []⟩)], some [⟨1, "AAPL", 1, 2, 100, 10, 1⟩]⟩,
        1) := by
  refine ⟨rfl, ?_⟩
  simp +decide [c7CancelledBuy, c7Gw3, c7Gw2, c7Gw1, c7Gw0, c7Buy, c7Sell,
    Gateway.Submit, Gateway.Cancel, validateOrder, lookupBook, updateBooks,
    NewGateway, NewOrderBook, OrderBook.Submit, OrderBook.matchO,
    OrderBook.matchBuy, OrderBook.matchSell, OrderBook.Cancel, cancelScan,
    matchLoop, finalizeOrder, heapPush, heapPop, upHeap, downHeap, swapL,
    newTrade, Order.IsActive, Order.IsFilled, Order.Remaining, Buy, Sell,
    Limit, Market, IOC, StatusOpen, StatusPartial, StatusFilled,
    StatusCancelled, StatusRejected, goOk]

/-- C7 (amended): the gateway performs no terminal-status check, so no
rejection is returned for a terminal order; a FILLED order, however, has no
remaining quantity, so resubmitting it produces no trades and leaves the
gateway (every book and the trade log) and the id counter unchanged.
(A CANCELLED or REJECTED order with remaining quantity is processed like a
live order and may trade — see the counterexample.) -/
theorem filled_resubmit_no_trades_no_change (gw : Gateway) (o : Order)
    (seq : Nat) (hfil : o.IsFilled = true) :
    ∃ e o', gw.Submit (some o) seq = GoResult.ok ([], e, o', gw, seq) := by
  simp only [Gateway.Submit]
  cases hval : validateOrder (some o) with
  | some e => exact ⟨some (.validation e), _, rfl⟩
  | none =>
    cases hlb : lookupBook gw.books o.Symbol with
    | none => exact ⟨some (.unknownSymbol o.Symbol), _, rfl⟩
    | some book =>
      obtain ⟨o', hsub⟩ := book_submit_filled_noop book o seq hfil
      refine ⟨none, o', ?_⟩
      simp only [hsub, updateBooks_lookup_self gw.books o.Symbol book hlb,
        option_map_append_nil]

def c7Filled : Order := ⟨9, "AAPL", Buy, Limit, StatusOpen, 50, 10, 10, 3⟩

theorem filled_resubmit_no_trades_no_change_witness :
    c7Filled.IsFilled = true ∧
    ∃ e o', c7Gw0.Submit (some c7Filled) 0 = GoResult.ok ([], e, o', c7Gw0, 0) :=
  ⟨by decide, filled_resubmit_no_trades_no_change c7Gw0 c7Filled 0 (by decide)⟩

/-- C2: passive pricing.  Every trade emitted by a Submit call carries the
price of a resting (passive) order on the opposite side that was active at
the moment of the match — identified by the trade's passive-side order id —
and never a price of its own making: prices are read off the resting order,
which never has its `Price` field mutated. -/
theorem passive_pricing (ob : OrderBook) (o : Order) (seq : Nat) (t : Trade)
    (ht : t ∈ (ob.Submit o seq).trades) :
    (o.Side = Buy → ∃ p ∈ ob.asks, p.IsActive = true ∧
      t.SellOrderID = p.ID ∧ t.Price = p.Price) ∧
    (o.Side = Sell → ∃ p ∈ ob.bids, p.IsActive = true ∧
      t.BuyOrderID = p.ID ∧ t.Price = p.Price) := by
  unfold OrderBook.Submit OrderBook.matchO at ht
  by_cases hb : o.Side = Buy
  · rw [if_pos hb] at ht
    unfold OrderBook.matchBuy at ht
    simp only at ht
    rcases matchLoop_trades o ob.asks seq [] t ht with hemp |
      ⟨s', inc', b, q, rfl, hbact, o0, ho0, hmut⟩
    · exact absurd hemp (List.not_mem_nil t)
    constructor
    · intro _
      exact ⟨o0, ho0, hmut.2.2.2.2.2.2.2 hbact, hmut.1, hmut.2.2.2.2.1⟩
    · intro hs
      rw [hb] at hs
      exact absurd hs (by decide)
  · rw [if_neg hb] at ht
    by_cases hs : o.Side = Sell
    · rw [if_pos hs] at ht
      unfold OrderBook.matchSell at ht
      simp only at ht
      rcases matchLoop_trades o ob.bids seq [] t ht with hemp |
        ⟨s', inc', b, q, rfl, hbact, o0, ho0, hmut⟩
      · exact absurd hemp (List.not_mem_nil t)
      constructor
      · intro hb'
        exact absurd hb' hb
      · intro _
        exact ⟨o0, ho0, hmut.2.2.2.2.2.2.2 hbact, hmut.1, hmut.2.2.2.2.1⟩
    · rw [if_neg hs] at ht
      exact absurd ht (List.not_mem_nil t)

def c2Ask : Order := ⟨1, "AAPL", Sell, Limit, StatusOpen, 189, 100, 0, 1⟩

def c2Book : OrderBook := ((NewOrderBook "AAPL").Submit c2Ask 0).book

def c2Buy : Order := ⟨2, "AAPL", Buy, Limit, StatusOpen, 190, 100, 0, 2⟩

theorem c2Book_trade :
    ⟨1, "AAPL", 2, 1, 189, 100, 2⟩ ∈ (c2Book.Submit c2Buy 0).trades := by
  simp +decide [c2Book, c2Ask, c2Buy, NewOrderBook, OrderBook.Submit,
    OrderBook.matchO, OrderBook.matchBuy, OrderBook.matchSell, matchLoop,
    finalizeOrder, heapPush, heapPop, upHeap, downHeap, swapL, newTrade,
    Order.IsActive, Order.IsFilled, Order.Remaining, Buy, Sell, Limit,
    Market, IOC, StatusOpen, StatusPartial, StatusFilled, StatusCancelled]

theorem passive_pricing_witness :
    c2Buy.Side = Buy ∧
    ∃ p ∈ c2Book.asks, p.IsActive = true ∧
      (⟨1, "AAPL", 2, 1, 189, 100, 2⟩ : Trade).SellOrderID = p.ID ∧
      (⟨1, "AAPL", 2, 1, 189, 100, 2⟩ : Trade).Price = p.Price :=
  ⟨rfl, (passive_pricing c2Book c2Buy 0 _ c2Book_trade).1 rfl⟩

/-! ### C3: IOC and the price gate -/

def c3Ask : Order := ⟨1, "AAPL", Sell, Limit, StatusOpen, 200, 100, 0, 1⟩

def c3Book : OrderBook := ((NewOrderBook "AAPL").Submit c3Ask 0).book

def c3IOC : Order := ⟨2, "AAPL", Buy, IOC, StatusOpen, 100, 50, 0, 2⟩

/-- C3 counterexample: a BUY IOC with positive limit price 100 trades against
a resting ask priced 200 — the matching loop's price gate tests
`incoming.Type == Limit`, so IOC orders skip their own limit price. -/
theorem c3_counterexample :
    c3IOC.Typ = IOC ∧ 0 < c3IOC.Price ∧ c3IOC.Side = Buy ∧
    c3Book.asks = [{ c3Ask with Status := StatusOpen }] ∧
    (c3Book.Submit c3IOC 0).trades = [⟨1, "AAPL", 2, 1, 200, 50, 2⟩] ∧
    c3IOC.Price < (200 : ℚ) := by
  refine ⟨rfl, by decide, rfl, ?_, ?_, by decide⟩
  · simp +decide [c3Book, c3Ask, NewOrderBook, OrderBook.Submit,
      OrderBook.matchO, OrderBook.matchBuy, OrderBook.matchSell, matchLoop,
      finalizeOrder, heapPush, heapPop, upHeap, downHeap, swapL, newTrade,
      Order.IsActive, Order.IsFilled, Order.Remaining, Buy, Sell, Limit,
      Market, IOC, StatusOpen, StatusPartial, StatusFilled, StatusCancelled]
  · simp +decide [c3Book, c3Ask, c3IOC, NewOrderBook, OrderBook.Submit,
      OrderBook.matchO, OrderBook.matchBuy, OrderBook.matchSell, matchLoop,
      finalizeOrder, heapPush, heapPop, upHeap, downHeap, swapL, newTrade,
      Order.IsActive, Order.IsFilled, Order.Remaining, Buy, Sell, Limit,
      Market, IOC, StatusOpen, StatusPartial, StatusFilled, StatusCancelled]

/-- C3 (amended): IOC orders skip the matching loop's price gate entirely
(they can trade through their own limit — see the counterexample), and any
residual is cancelled instead of resting: after Submit an IOC order's status
is FILLED or CANCELLED and its own side of the book is untouched. -/
theorem ioc_residual_cancelled (ob : OrderBook) (o : Order) (seq : Nat)
    (hioc : o.Typ = IOC) (hside : o.Side = Buy ∨ o.Side = Sell) :
    ((ob.Submit o seq).inc.Status = StatusFilled ∨
     (ob.Submit o seq).inc.Status = StatusCancelled) ∧
    (o.Side = Buy → (ob.Submit o seq).book.bids = ob.bids) ∧
    (o.Side = Sell → (ob.Submit o seq).book.asks = ob.asks) := by
  unfold OrderBook.Submit OrderBook.matchO
  rcases hside with hb | hs
  · rw [if_pos hb]
    unfold OrderBook.matchBuy
    simp only
    have htyp : (matchLoop askLess (fun ip ap => decide (ip < ap))
        (fun s inc best q =>
          newTrade s ob.symbol inc.ID best.ID best.Price q inc.Timestamp)
        o ob.asks seq []).inc.Typ = IOC := by
      rw [(matchLoop_inc o ob.asks seq []).2.2.2.1, hioc]
    cases hfil : (matchLoop askLess (fun ip ap => decide (ip < ap))
        (fun s inc best q =>
          newTrade s ob.symbol inc.ID best.ID best.Price q inc.Timestamp)
        o ob.asks seq []).inc.IsFilled
    · rw [finalizeOrder_ioc _ _ _ hfil htyp]
      exact ⟨Or.inr rfl, fun _ => rfl, fun hs' => by rw [hb] at hs'; exact absurd hs' (by decide)⟩
    · rw [finalizeOrder_filled _ _ _ hfil]
      exact ⟨Or.inl rfl, fun _ => rfl, fun hs' => by rw [hb] at hs'; exact absurd hs' (by decide)⟩
  · rw [if_neg (by rw [hs]; decide), if_pos hs]
    unfold OrderBook.matchSell
    simp only
    have htyp : (matchLoop bidLess (fun ip bp => decide (ip > bp))
        (fun s inc best q =>
          newTrade s ob.symbol best.ID inc.ID best.Price q inc.Timestamp)
        o ob.bids seq []).inc.Typ = IOC := by
      rw [(matchLoop_inc o ob.bids seq []).2.2.2.1, hioc]
    cases hfil : (matchLoop bidLess (fun ip bp => decide (ip > bp))
        (fun s inc best q =>
          newTrade s ob.symbol best.ID inc.ID best.Price q inc.Timestamp)
        o ob.bids seq []).inc.IsFilled
    · rw [finalizeOrder_ioc _ _ _ hfil htyp]
      exact ⟨Or.inr rfl, fun hb' => by rw [hs] at hb'; exact absurd hb' (by decide), fun _ => rfl⟩
    · rw [finalizeOrder_filled _ _ _ hfil]
      exact ⟨Or.inl rfl, fun hb' => by rw [hs] at hb'; exact absurd hb' (by decide), fun _ => rfl⟩

theorem ioc_residual_cancelled_witness :
    c3IOC.Typ = IOC ∧
    (((c3Book.Submit c3IOC 0).inc.Status = StatusFilled ∨
      (c3Book.Submit c3IOC 0).inc.Status = StatusCancelled) ∧
     (c3IOC.Side = Buy → (c3Book.Submit c3IOC 0).book.bids = c3Book.bids) ∧
     (c3IOC.Side = Sell → (c3Book.Submit c3IOC 0).book.asks = c3Book.asks)) :=
  ⟨rfl, ioc_residual_cancelled c3Book c3IOC 0 rfl (Or.inl rfl)⟩

theorem mem_set_self (l : List Order) (i : Nat) (x : Order)
    (h : i < l.length) : x ∈ l.set i x := by
  have hx : (l.set i x).getD i default = x := by
    rw [List.getD_eq_getElem?_getD, List.getElem?_set_eq (by omega),
      Option.getD_some]
  have hm := getD_mem_of_lt (l.set i x) i (by rw [List.length_set]; exact h)
  rwa [hx] at hm

theorem getD_eq_getElem (l : List Order) (i : Nat) (h : i < l.length) :
    l.getD i default = l[i] := by
  rw [List.getD_eq_getElem?_getD, List.getElem?_eq_getElem h]
  rfl

theorem pairwise_ids_getD {l : List Order}
    (hpw : l.Pairwise (fun x y => x.ID ≠ y.ID)) {m i : Nat}
    (hm : m < l.length) (hi : i < l.length) (hne : m ≠ i) :
    (l.getD m default).ID ≠ (l.getD i default).ID := by
  rw [getD_eq_getElem l m hm, getD_eq_getElem l i hi]
  rcases Nat.lt_or_ge m i with h | h
  · exact List.pairwise_iff_getElem.mp hpw m i hm hi h
  · exact Ne.symm (List.pairwise_iff_getElem.mp hpw i m hi hm (by omega))

/-- After the first occurrence of `orderID` among the active orders of `l`
has been cancelled, no active order with that id remains, provided ids are
pairwise distinct. -/
theorem cancelScan_after_set (orderID : Nat) {l : List Order} {i : Nat}
    (hpw : l.Pairwise (fun x y => x.ID ≠ y.ID)) (hi : i < l.length)
    (hid : (l.getD i default).ID = orderID) :
    cancelScan orderID
      (l.set i { l.getD i default with Status := StatusCancelled }) = none := by
  rw [cancelScan_none_iff]
  intro o ho
  obtain ⟨m, hm, hval⟩ := mem_iff_getD.mp ho
  rw [List.length_set] at hm
  rintro ⟨hoid, hoact⟩
  by_cases hmi : m = i
  · subst hmi
    rw [List.getD_eq_getElem?_getD, List.getElem?_set_eq (by omega),
      Option.getD_some] at hval
    rw [← hval] at hoact
    rw [isActive_cancelled] at hoact
    exact absurd hoact (by simp)
  · rw [List.getD_eq_getElem?_getD, List.getElem?_set_ne (Ne.symm hmi),
      ← List.getD_eq_getElem?_getD] at hval
    rw [← hval] at hoid
    exact pairwise_ids_getD hpw hm hi hmi (hoid.trans hid.symm)

/-- C9: `Cancel` returns true exactly when some physically-present order has
the requested id and is still active; on success that order's status becomes
CANCELLED; on failure the book is unchanged; and (for distinct order ids,
as produced by the id allocator) a second cancel of the same id returns
false and changes nothing — in particular cancelling an already-cancelled
order is a not-found no-op. -/
theorem cancel_semantics (ob : OrderBook) (orderID : Nat) :
    ((ob.Cancel orderID).1 = true ↔
      ∃ o ∈ ob.bids ++ ob.asks, o.ID = orderID ∧ o.IsActive = true) ∧
    ((ob.Cancel orderID).1 = false → (ob.Cancel orderID).2 = ob) ∧
    ((ob.Cancel orderID).1 = true →
      ∃ o ∈ (ob.Cancel orderID).2.bids ++ (ob.Cancel orderID).2.asks,
        o.ID = orderID ∧ o.Status = StatusCancelled) ∧
    ((ob.bids ++ ob.asks).Pairwise (fun x y => x.ID ≠ y.ID) →
      ((ob.Cancel orderID).2.Cancel orderID) = (false, (ob.Cancel orderID).2)) := by
  cases hbs : cancelScan orderID ob.bids with
  | some bids' =>
    have hc : ob.Cancel orderID = (true, { ob with bids := bids' }) := by
      unfold OrderBook.Cancel
      rw [hbs]
    obtain ⟨i, hi, hid, hact, hset, hfirst⟩ := cancelScan_some_spec orderID _ _ hbs
    rw [hc]
    refine ⟨?_, ?_, ?_, ?_⟩
    · simp only [true_iff]
      exact ⟨ob.bids.getD i default,
        List.mem_append.mpr (Or.inl (getD_mem_of_lt _ _ hi)), hid, hact⟩
    · intro hcon
      exact absurd hcon (by simp)
    · intro _
      refine ⟨{ ob.bids.getD i default with Status := StatusCancelled }, ?_, hid, rfl⟩
      apply List.mem_append.mpr
      left
      rw [hset]
      exact mem_set_self _ i _ hi
    · intro hpw
      have hpwb := (List.pairwise_append.mp hpw).1
      have hcross := (List.pairwise_append.mp hpw).2.2
      have hn1 : cancelScan orderID bids' = none := by
        rw [hset]
        exact cancelScan_after_set orderID hpwb hi hid
      have hn2 : cancelScan orderID ob.asks = none := by
        rw [cancelScan_none_iff]
        intro o ho
        rintro ⟨hoid, _⟩
        exact hcross (ob.bids.getD i default) (getD_mem_of_lt _ _ hi) o ho
          (hid.trans hoid.symm)
      unfold OrderBook.Cancel
      dsimp only
      rw [hn1, hn2]
  | none =>
    cases has : cancelScan orderID ob.asks with
    | some asks' =>
      have hc : ob.Cancel orderID = (true, { ob with asks := asks' }) := by
        unfold OrderBook.Cancel
        rw [hbs, has]
      obtain ⟨i, hi, hid, hact, hset, hfirst⟩ := cancelScan_some_spec orderID _ _ has
      rw [hc]
      refine ⟨?_, ?_, ?_, ?_⟩
      · simp only [true_iff]
        exact ⟨ob.asks.getD i default,
          List.mem_append.mpr (Or.inr (getD_mem_of_lt _ _ hi)), hid, hact⟩
      · intro hcon
        exact absurd hcon (by simp)
      · intro _
        refine ⟨{ ob.asks.getD i default with Status := StatusCancelled }, ?_, hid, rfl⟩
        apply List.mem_append.mpr
        right
        rw [hset]
        exact mem_set_self _ i _ hi
      · intro hpw
        have hpwa := (List.pairwise_append.mp hpw).2.1
        have hn1 : cancelScan orderID asks' = none := by
          rw [hset]
          exact cancelScan_after_set orderID hpwa hi hid
        unfold OrderBook.Cancel
        dsimp only
        rw [hbs, hn1]
    | none =>
      have hc : ob.Cancel orderID = (false, ob) := by
        unfold OrderBook.Cancel
        rw [hbs, has]
      rw [hc]
      refine ⟨?_, fun _ => rfl, ?_, ?_⟩
      · constructor
        · intro hcon
          exact absurd hcon (by simp)
        · rintro ⟨o, ho, hoid, hoact⟩
          exfalso
          rcases List.mem_append.mp ho with hin | hin
          · exact (cancelScan_none_iff orderID ob.bids).mp hbs o hin ⟨hoid, hoact⟩
          · exact (cancelScan_none_iff orderID ob.asks).mp has o hin ⟨hoid, hoact⟩
      · intro hcon
        exact absurd hcon (by simp)
      · intro _
        exact hc

theorem c2Book_eq : c2Book = ⟨"AAPL", [], [c2Ask]⟩ := by
  simp +decide [c2Book, c2Ask, NewOrderBook, OrderBook.Submit,
    OrderBook.matchO, OrderBook.matchBuy, OrderBook.matchSell, matchLoop,
    finalizeOrder, heapPush, heapPop, upHeap, downHeap, swapL, newTrade,
    Order.IsActive, Order.IsFilled, Order.Remaining, Buy, Sell, Limit,
    Market, IOC, StatusOpen, StatusPartial, StatusFilled, StatusCancelled]

theorem cancel_semantics_witness :
    (c2Book.Cancel 1).1 = true ∧
    ((c2Book.Cancel 1).2.Cancel 1) = (false, (c2Book.Cancel 1).2) := by
  have h := cancel_semantics c2Book 1
  constructor
  · apply h.1.mpr
    refine ⟨c2Ask, ?_, by decide, by decide⟩
    rw [c2Book_eq]
    decide
  · apply h.2.2.2
    rw [c2Book_eq]
    decide

/-! ### C10: the cancel frame property -/

/-- All fields except `Status` agree. -/
def sameExceptStatus (o o' : Order) : Prop :=
  o'.ID = o.ID ∧ o'.Symbol = o.Symbol ∧ o'.Side = o.Side ∧ o'.Typ = o.Typ ∧
  o'.Price = o.Price ∧ o'.Quantity = o.Quantity ∧ o'.Filled = o.Filled ∧
  o'.Timestamp = o.Timestamp

theorem sameExceptStatus_refl (o : Order) : sameExceptStatus o o :=
  ⟨rfl, rfl, rfl, rfl, rfl, rfl, rfl, rfl⟩

/-- Number of positions whose `Status` differs between two parallel lists. -/
def statusChanges (l l' : List Order) : Nat :=
  ((l.zip l').filter (fun p => decide (p.1.Status ≠ p.2.Status))).length

theorem statusChanges_cons (o x : Order) (l l' : List Order) :
    statusChanges (o :: l) (x :: l') =
      (if o.Status = x.Status then 0 else 1) + statusChanges l l' := by
  unfold statusChanges
  rw [List.zip_cons_cons, List.filter_cons]
  by_cases h : o.Status = x.Status
  · simp [h]
  · simp [h, Nat.add_comm]

theorem statusChanges_self (l : List Order) : statusChanges l l = 0 := by
  induction l with
  | nil => rfl
  | cons o rest ih => rw [statusChanges_cons, ih, if_pos rfl]

theorem statusChanges_set (l : List Order) :
    ∀ (i : Nat) (x : Order), i < l.length →
      statusChanges l (l.set i x) =
        if x.Status = (l.getD i default).Status then 0 else 1 := by
  induction l with
  | nil => intro i x h; simp at h
  | cons o rest ih =>
    intro i x h
    cases i with
    | zero =>
      rw [List.set_cons_zero, statusChanges_cons, statusChanges_self,
        List.getD_cons_zero]
      by_cases hst : x.Status = o.Status
      · rw [if_pos hst.symm, if_pos hst]
      · rw [if_neg (fun he => hst he.symm), if_neg hst]
    | succ i' =>
      rw [List.set_cons_succ, statusChanges_cons, if_pos rfl,
        List.getD_cons_succ]
      simp only [Nat.zero_add]
      exact ih i' x (by simpa using h)

theorem getD_set_self_of_lt (l : List Order) (i : Nat) (x : Order)
    (h : i < l.length) : (l.set i x).getD i default = x := by
  rw [List.getD_eq_getElem?_getD, List.getElem?_set_eq (by omega),
    Option.getD_some]

theorem getD_set_ne_idx (l : List Order) (i m : Nat) (x : Order)
    (h : m ≠ i) : (l.set i x).getD m default = l.getD m default := by
  rw [List.getD_eq_getElem?_getD, List.getElem?_set_ne (Ne.symm h),
    ← List.getD_eq_getElem?_getD]

/-- C10: a cancel call — successful or not — never adds or removes a heap
entry, never touches any field other than `Status`, flips at most one
order's status, and only to CANCELLED, only on an order that was active and
carried the requested id. -/
theorem cancel_frame (ob : OrderBook) (orderID : Nat) :
    (ob.Cancel orderID).2.bids.length = ob.bids.length ∧
    (ob.Cancel orderID).2.asks.length = ob.asks.length ∧
    (∀ m, sameExceptStatus (ob.bids.getD m default)
      ((ob.Cancel orderID).2.bids.getD m default)) ∧
    (∀ m, sameExceptStatus (ob.asks.getD m default)
      ((ob.Cancel orderID).2.asks.getD m default)) ∧
    (∀ m, ((ob.Cancel orderID).2.bids.getD m default).Status
        = (ob.bids.getD m default).Status ∨
      ((ob.bids.getD m default).IsActive = true ∧
       (ob.bids.getD m default).ID = orderID ∧
       ((ob.Cancel orderID).2.bids.getD m default).Status = StatusCancelled)) ∧
    (∀ m, ((ob.Cancel orderID).2.asks.getD m default).Status
        = (ob.asks.getD m default).Status ∨
      ((ob.asks.getD m default).IsActive = true ∧
       (ob.asks.getD m default).ID = orderID ∧
       ((ob.Cancel orderID).2.asks.getD m default).Status = StatusCancelled)) ∧
    statusChanges ob.bids (ob.Cancel orderID).2.bids
      + statusChanges ob.asks (ob.Cancel orderID).2.asks ≤ 1 := by
  cases hbs : cancelScan orderID ob.bids with
  | some bids' =>
    have hc : ob.Cancel orderID = (true, { ob with bids := bids' }) := by
      unfold OrderBook.Cancel
      rw [hbs]
    obtain ⟨i, hi, hid, hact, hset, hfirst⟩ := cancelScan_some_spec orderID _ _ hbs
    rw [hc]
    dsimp only
    subst hset
    refine ⟨List.length_set .., rfl, ?_, fun m => sameExceptStatus_refl _,
      ?_, fun m => Or.inl rfl, ?_⟩
    · intro m
      by_cases hmi : m = i
      · subst hmi
        rw [getD_set_self_of_lt _ _ _ hi]
        exact ⟨rfl, rfl, rfl, rfl, rfl, rfl, rfl, rfl⟩
      · rw [getD_set_ne_idx _ _ _ _ hmi]
        exact sameExceptStatus_refl _
    · intro m
      by_cases hmi : m = i
      · subst hmi
        rw [getD_set_self_of_lt _ _ _ hi]
        exact Or.inr ⟨hact, hid, rfl⟩
      · rw [getD_set_ne_idx _ _ _ _ hmi]
        exact Or.inl rfl
    · rw [statusChanges_set _ i _ hi, statusChanges_self]
      split <;> omega
  | none =>
    cases has : cancelScan orderID ob.asks with
    | some asks' =>
      have hc : ob.Cancel orderID = (true, { ob with asks := asks' }) := by
        unfold OrderBook.Cancel
        rw [hbs, has]
      obtain ⟨i, hi, hid, hact, hset, hfirst⟩ := cancelScan_some_spec orderID _ _ has
      rw [hc]
      dsimp only
      subst hset
      refine ⟨rfl, List.length_set .., fun m => sameExceptStatus_refl _, ?_,
        fun m => Or.inl rfl, ?_, ?_⟩
      · intro m
        by_cases hmi : m = i
        · subst hmi
          rw [getD_set_self_of_lt _ _ _ hi]
          exact ⟨rfl, rfl, rfl, rfl, rfl, rfl, rfl, rfl⟩
        · rw [getD_set_ne_idx _ _ _ _ hmi]
          exact sameExceptStatus_refl _
      · intro m
        by_cases hmi : m = i
        · subst hmi
          rw [getD_set_self_of_lt _ _ _ hi]
          exact Or.inr ⟨hact, hid, rfl⟩
        · rw [getD_set_ne_idx _ _ _ _ hmi]
          exact Or.inl rfl
      · rw [statusChanges_set _ i _ hi, statusChanges_self]
        split <;> omega
    | none =>
      have hc : ob.Cancel orderID = (false, ob) := by
        unfold OrderBook.Cancel
        rw [hbs, has]
      rw [hc]
      refine ⟨rfl, rfl, fun m => sameExceptStatus_refl _,
        fun m => sameExceptStatus_refl _, fun m => Or.inl rfl,
        fun m => Or.inl rfl, ?_⟩
      rw [statusChanges_self, statusChanges_self]
      omega

/-! ### C4: no crossed book at rest -/

/-- C4: in every reachable book state (in particular after every completed
Submit), if both top-of-book queries report a price as present, the best bid
price is strictly below the best ask price. -/
theorem no_crossed_book_at_rest {ob : OrderBook} (h : Reach ob)
    (hbid : (ob.BestBid).2 = true) (hask : (ob.BestAsk).2 = true) :
    (ob.BestBid).1 < (ob.BestAsk).1 := by
  obtain ⟨hb, ha, hx⟩ := reach_bookInv h
  cases hbl : ob.bids with
  | nil =>
    have hBB : ob.BestBid = (0, false) := by
      unfold OrderBook.BestBid; rw [hbl]
    rw [hBB] at hbid
    simp at hbid
  | cons tb restb =>
    have hBB : ob.BestBid = if tb.IsActive then (tb.Price, true) else (0, false) := by
      unfold OrderBook.BestBid; rw [hbl]
    cases hal : ob.asks with
    | nil =>
      have hBA : ob.BestAsk = (0, false) := by
        unfold OrderBook.BestAsk; rw [hal]
      rw [hBA] at hask
      simp at hask
    | cons ta resta =>
      have hBA : ob.BestAsk = if ta.IsActive then (ta.Price, true) else (0, false) := by
        unfold OrderBook.BestAsk; rw [hal]
      rw [hBB] at hbid ⊢
      rw [hBA] at hask ⊢
      by_cases htb : tb.IsActive = true
      · by_cases hta : ta.IsActive = true
        · rw [if_pos htb, if_pos hta]
          exact hx tb (by rw [hbl]; exact List.mem_cons_self tb restb)
            ta (by rw [hal]; exact List.mem_cons_self ta resta) htb hta
        · rw [if_neg (by rw [bool_eq_false_of_ne_true hta]; simp)] at hask
          simp at hask
      · rw [if_neg (by rw [bool_eq_false_of_ne_true htb]; simp)] at hbid
        simp at hbid

def c4Bid : Order := ⟨1, "AAPL", Buy, Limit, StatusOpen, 90, 10, 0, 1⟩

def c4Ask : Order := ⟨2, "AAPL", Sell, Limit, StatusOpen, 100, 10, 0, 2⟩

def c4Book : OrderBook :=
  (((NewOrderBook "AAPL").Submit c4Bid 0).book.Submit c4Ask 0).book

theorem c4Reach : Reach c4Book :=
  Reach.submit c4Ask 0
    (Reach.submit c4Bid 0 (Reach.init "AAPL") (by decide)) (by decide)

theorem c4Book_eq : c4Book = ⟨"AAPL", [c4Bid], [c4Ask]⟩ := by
  simp +decide [c4Book, c4Bid, c4Ask, NewOrderBook, OrderBook.Submit,
    OrderBook.matchO, OrderBook.matchBuy, OrderBook.matchSell, matchLoop,
    finalizeOrder, heapPush, heapPop, upHeap, downHeap, swapL, newTrade,
    Order.IsActive, Order.IsFilled, Order.Remaining, Buy, Sell, Limit,
    Market, IOC, StatusOpen, StatusPartial, StatusFilled, StatusCancelled]

theorem no_crossed_book_at_rest_witness :
    (c4Book.BestBid).2 = true ∧ (c4Book.BestAsk).2 = true ∧
    (c4Book.BestBid).1 < (c4Book.BestAsk).1 :=
  ⟨by rw [c4Book_eq]; decide, by rw [c4Book_eq]; decide,
   no_crossed_book_at_rest c4Reach (by rw [c4Book_eq]; decide)
     (by rw [c4Book_eq]; decide)⟩

/-! ### C5: what the top-of-book queries actually see -/

def c5Bid1 : Order := ⟨1, "AAPL", Buy, Limit, StatusOpen, 100, 10, 0, 1⟩

def c5Bid2 : Order := ⟨2, "AAPL", Buy, Limit, StatusOpen, 90, 10, 0, 2⟩

def c5Book : OrderBook :=
  ((((NewOrderBook "AAPL").Submit c5Bid1 0).book.Submit c5Bid2 0).book.Cancel 1).2

theorem c5Reach : Reach c5Book :=
  Reach.cancel 1
    (Reach.submit c5Bid2 0
      (Reach.submit c5Bid1 0 (Reach.init "AAPL") (by decide)) (by decide))

theorem c5Book_eq :
    c5Book = ⟨"AAPL", [{ c5Bid1 with Status := StatusCancelled }, c5Bid2], []⟩ := by
  simp +decide [c5Book, c5Bid1, c5Bid2, NewOrderBook, OrderBook.Submit,
    OrderBook.matchO, OrderBook.matchBuy, OrderBook.matchSell,
    OrderBook.Cancel, cancelScan, matchLoop, finalizeOrder, heapPush,
    heapPop, upHeap, downHeap, swapL, newTrade, Order.IsActive,
    Order.IsFilled, Order.Remaining, Buy, Sell, Limit, Market, IOC,
    StatusOpen, StatusPartial, StatusFilled, StatusCancelled]

/-- C5 counterexample: after cancelling the order sitting at the top of the
bid heap, an active bid (price 90) still rests in the book, yet `BestBid`
reports `(0, false)` — the reader cannot mutate the heap, so it gives up at
the first inactive top instead of skipping it. -/
theorem c5_counterexample :
    Reach c5Book ∧ (∃ o ∈ c5Book.bids, o.IsActive = true) ∧
    c5Book.BestBid = (0, false) := by
  refine ⟨c5Reach, ⟨c5Bid2, ?_, by decide⟩, ?_⟩
  · rw [c5Book_eq]; decide
  · rw [c5Book_eq]; decide

/-- C5 (amended): the best-price queries inspect only the physical top of
the heap: they report present exactly when the heap is nonempty and its top
entry is active (even if active entries sit deeper under an inactive top),
and in that case the reported price is the top's price, which for reachable
states is the best price among all resting entries on that side. -/
theorem best_query_sees_only_top {ob : OrderBook} (h : Reach ob) :
    ((ob.BestBid).2 = true ↔
      ob.bids ≠ [] ∧ (ob.bids.getD 0 default).IsActive = true) ∧
    ((ob.BestBid).2 = true → (ob.BestBid).1 = (ob.bids.getD 0 default).Price ∧
      ∀ o ∈ ob.bids, o.Price ≤ (ob.BestBid).1) ∧
    ((ob.BestAsk).2 = true ↔
      ob.asks ≠ [] ∧ (ob.asks.getD 0 default).IsActive = true) ∧
    ((ob.BestAsk).2 = true → (ob.BestAsk).1 = (ob.asks.getD 0 default).Price ∧
      ∀ o ∈ ob.asks, (ob.BestAsk).1 ≤ o.Price) := by
  obtain ⟨hb, ha, hx⟩ := reach_bookInv h
  refine ⟨?_, ?_, ?_, ?_⟩
  · cases hbl : ob.bids with
    | nil =>
      have hBB : ob.BestBid = (0, false) := by
        unfold OrderBook.BestBid; rw [hbl]
      rw [hBB]
      simp
    | cons tb restb =>
      have hBB : ob.BestBid = if tb.IsActive then (tb.Price, true) else (0, false) := by
        unfold OrderBook.BestBid; rw [hbl]
      rw [hBB]
      by_cases htb : tb.IsActive = true
      · simp [htb, List.getD_cons_zero]
      · rw [if_neg (by rw [bool_eq_false_of_ne_true htb]; simp)]
        simp [List.getD_cons_zero]
        exact bool_eq_false_of_ne_true htb
  · intro hbid
    cases hbl : ob.bids with
    | nil =>
      have hBB : ob.BestBid = (0, false) := by
        unfold OrderBook.BestBid; rw [hbl]
      rw [hBB] at hbid
      simp at hbid
    | cons tb restb =>
      have hBB : ob.BestBid = if tb.IsActive then (tb.Price, true) else (0, false) := by
        unfold OrderBook.BestBid; rw [hbl]
      rw [hBB] at hbid ⊢
      by_cases htb : tb.IsActive = true
      · rw [if_pos htb] at hbid ⊢
        rw [List.getD_cons_zero]
        refine ⟨rfl, ?_⟩
        intro o ho
        have hdom := bidHeap_top_max hb (show o ∈ ob.bids by rw [hbl]; exact ho)
        rw [hbl, List.getD_cons_zero] at hdom
        rcases hdom with hlt | ⟨heq, _⟩
        · exact le_of_lt hlt
        · exact le_of_eq heq
      · rw [if_neg (by rw [bool_eq_false_of_ne_true htb]; simp)] at hbid
        simp at hbid
  · cases hal : ob.asks with
    | nil =>
      have hBA : ob.BestAsk = (0, false) := by
        unfold OrderBook.BestAsk; rw [hal]
      rw [hBA]
      simp
    | cons ta resta =>
      have hBA : ob.BestAsk = if ta.IsActive then (ta.Price, true) else (0, false) := by
        unfold OrderBook.BestAsk; rw [hal]
      rw [hBA]
      by_cases hta : ta.IsActive = true
      · simp [hta, List.getD_cons_zero]
      · rw [if_neg (by rw [bool_eq_false_of_ne_true hta]; simp)]
        simp [List.getD_cons_zero]
        exact bool_eq_false_of_ne_true hta
  · intro hask
    cases hal : ob.asks with
    | nil =>
      have hBA : ob.BestAsk = (0, false) := by
        unfold OrderBook.BestAsk; rw [hal]
      rw [hBA] at hask
      simp at hask
    | cons ta resta =>
      have hBA : ob.BestAsk = if ta.IsActive then (ta.Price, true) else (0, false) := by
        unfold OrderBook.BestAsk; rw [hal]
      rw [hBA] at hask ⊢
      by_cases hta : ta.IsActive = true
      · rw [if_pos hta] at hask ⊢
        rw [List.getD_cons_zero]
        refine ⟨rfl, ?_⟩
        intro o ho
        have hdom := askHeap_top_min ha (show o ∈ ob.asks by rw [hal]; exact ho)
        rw [hal, List.getD_cons_zero] at hdom
        rcases hdom with hlt | ⟨heq, _⟩
        · exact le_of_lt hlt
        · exact le_of_eq heq.symm
      · rw [if_neg (by rw [bool_eq_false_of_ne_true hta]; simp)] at hask
        simp at hask

theorem best_query_sees_only_top_witness :
    (c4Book.BestBid).2 = true ∧
    (c4Book.BestBid).1 = (c4Book.bids.getD 0 default).Price :=
  ⟨(best_query_sees_only_top c4Reach).1.mpr
    ⟨by rw [c4Book_eq]; decide, by rw [c4Book_eq]; decide⟩,
   ((best_query_sees_only_top c4Reach).2.1
     ((best_query_sees_only_top c4Reach).1.mpr
       ⟨by rw [c4Book_eq]; decide, by rw [c4Book_eq]; decide⟩)).1⟩

/-! ### C1: price-time priority -/

def c1A1 : Order := ⟨1, "AAPL", Sell, Limit, StatusOpen, 10, 5, 0, 7⟩

def c1A2 : Order := ⟨2, "AAPL", Sell, Limit, StatusOpen, 10, 5, 0, 7⟩

def c1Book : OrderBook :=
  (((NewOrderBook "AAPL").Submit c1A1 0).book.Submit c1A2 0).book

def c1Buy : Order := ⟨3, "AAPL", Buy, Limit, StatusOpen, 10, 5, 0, 9⟩

theorem c1Reach : Reach c1Book :=
  Reach.submit c1A2 0
    (Reach.submit c1A1 0 (Reach.init "AAPL") (by decide)) (by decide)

theorem c1Book_eq : c1Book = ⟨"AAPL", [], [c1A1, c1A2]⟩ := by
  simp +decide [c1Book, c1A1, c1A2, NewOrderBook, OrderBook.Submit,
    OrderBook.matchO, OrderBook.matchBuy, OrderBook.matchSell, matchLoop,
    finalizeOrder, heapPush, heapPop, upHeap, downHeap, swapL, newTrade,
    Order.IsActive, Order.IsFilled, Order.Remaining, Buy, Sell, Limit,
    Market, IOC, StatusOpen, StatusPartial, StatusFilled, StatusCancelled]

/-- C1 counterexample: two resting asks share price 10 and timestamp 7 (the
clock is not guaranteed to tick between submissions).  The matching loop
selects the first-inserted one (id 1) — the submitted buy trades against
id 1 — yet id 1 has neither a strictly better price nor a strictly earlier
timestamp than the other resting active ask (id 2), so the claim's
universally-quantified property fails at this reachable state. -/
theorem c1_counterexample :
    Reach c1Book ∧
    (c1Book.asks.getD 0 default).ID = 1 ∧
    ((c1Book.Submit c1Buy 0).trades.map (fun t => t.SellOrderID)) = [1] ∧
    ∃ other ∈ c1Book.asks, other.ID = 2 ∧ other.IsActive = true ∧
      ¬((c1Book.asks.getD 0 default).Price < other.Price ∨
        ((c1Book.asks.getD 0 default).Price = other.Price ∧
         (c1Book.asks.getD 0 default).Timestamp < other.Timestamp)) := by
  refine ⟨c1Reach, by rw [c1Book_eq]; decide, ?_,
    ⟨c1A2, by rw [c1Book_eq]; decide, by decide, by decide, ?_⟩⟩
  · simp +decide [c1Book, c1A1, c1A2, c1Buy, NewOrderBook, OrderBook.Submit,
      OrderBook.matchO, OrderBook.matchBuy, OrderBook.matchSell, matchLoop,
      finalizeOrder, heapPush, heapPop, upHeap, downHeap, swapL, newTrade,
      Order.IsActive, Order.IsFilled, Order.Remaining, Buy, Sell, Limit,
      Market, IOC, StatusOpen, StatusPartial, StatusFilled, StatusCancelled]
  · rw [c1Book_eq]; decide

/-- C1 (amended): in every reachable book state, the entry at the top of a
side — the entry the matching loop will select next once inactive tops are
lazily discarded (every heap operation of the loop preserves the same heap
invariant) — has a strictly better price than every other resting entry on
its side (lower for asks, higher for bids), or an equal price and a
timestamp no later than the other's; consequently, of two resting same-side
orders at the same price with distinct timestamps, the earlier-timestamped
one is selected first.  (With identical timestamps the tie is broken
arbitrarily by heap order — see the counterexample.) -/
theorem price_time_priority {ob : OrderBook} (h : Reach ob) :
    (∀ k, 0 < k → k < ob.asks.length →
      ((ob.asks.getD 0 default).Price < (ob.asks.getD k default).Price ∨
       ((ob.asks.getD k default).Price = (ob.asks.getD 0 default).Price ∧
        (ob.asks.getD 0 default).Timestamp ≤ (ob.asks.getD k default).Timestamp))) ∧
    (∀ k, 0 < k → k < ob.bids.length →
      ((ob.bids.getD k default).Price < (ob.bids.getD 0 default).Price ∨
       ((ob.bids.getD k default).Price = (ob.bids.getD 0 default).Price ∧
        (ob.bids.getD 0 default).Timestamp ≤ (ob.bids.getD k default).Timestamp))) ∧
    (∀ k, 0 < k → k < ob.asks.length →
      (ob.asks.getD k default).Price = (ob.asks.getD 0 default).Price →
      (ob.asks.getD 0 default).Timestamp ≠ (ob.asks.getD k default).Timestamp →
      (ob.asks.getD 0 default).Timestamp < (ob.asks.getD k default).Timestamp) ∧
    (∀ k, 0 < k → k < ob.bids.length →
      (ob.bids.getD k default).Price = (ob.bids.getD 0 default).Price →
      (ob.bids.getD 0 default).Timestamp ≠ (ob.bids.getD k default).Timestamp →
      (ob.bids.getD 0 default).Timestamp < (ob.bids.getD k default).Timestamp) := by
  obtain ⟨hb, ha, hx⟩ := reach_bookInv h
  have hasks : ∀ k, 0 < k → k < ob.asks.length →
      ((ob.asks.getD 0 default).Price < (ob.asks.getD k default).Price ∨
       ((ob.asks.getD k default).Price = (ob.asks.getD 0 default).Price ∧
        (ob.asks.getD 0 default).Timestamp ≤ (ob.asks.getD k default).Timestamp)) := by
    intro k hk hkl
    have := isHeapN_root_min askLess_ok ha k hkl
    rwa [askLess_false_iff] at this
  have hbids : ∀ k, 0 < k → k < ob.bids.length →
      ((ob.bids.getD k default).Price < (ob.bids.getD 0 default).Price ∨
       ((ob.bids.getD k default).Price = (ob.bids.getD 0 default).Price ∧
        (ob.bids.getD 0 default).Timestamp ≤ (ob.bids.getD k default).Timestamp)) := by
    intro k hk hkl
    have := isHeapN_root_min bidLess_ok hb k hkl
    rwa [bidLess_false_iff] at this
  refine ⟨hasks, hbids, ?_, ?_⟩
  · intro k hk hkl heq hne
    rcases hasks k hk hkl with hlt | ⟨_, hle⟩
    · rw [heq] at hlt; exact absurd hlt (lt_irrefl _)
    · exact lt_of_le_of_ne hle hne
  · intro k hk hkl heq hne
    rcases hbids k hk hkl with hlt | ⟨_, hle⟩
    · rw [heq] at hlt; exact absurd hlt (lt_irrefl _)
    · exact lt_of_le_of_ne hle hne

theorem price_time_priority_witness :
    0 < 1 ∧ 1 < c1Book.asks.length ∧
    ((c1Book.asks.getD 0 default).Price < (c1Book.asks.getD 1 default).Price ∨
     ((c1Book.asks.getD 1 default).Price = (c1Book.asks.getD 0 default).Price ∧
      (c1Book.asks.getD 0 default).Timestamp ≤ (c1Book.asks.getD 1 default).Timestamp)) :=
  ⟨Nat.one_pos, by rw [c1Book_eq]; decide,
   (price_time_priority c1Reach).1 1 Nat.one_pos (by rw [c1Book_eq]; decide)⟩
